import Mathlib

/-!
Verification of the undirected `Graph` container of `src/Graph.hpp`.

Shallow embedding: the node table `nodes_` (a `std::vector` of
(position, node value) pairs) becomes a `List (P × V)`; the adjacency
table `adjacency_` (a `std::vector` of per-node `std::vector`s of
(neighbor id, edge value) pairs) becomes a `List (List (Nat × E))`.
`size_type` indices become `Nat`.  Every `operator[]` access whose
in-boundedness is not syntactically evident is modelled as a checked
access (`List.get?`), so mutating operations return `Option`: the
`none` branch corresponds to an out-of-bounds vector access or a
failed `assert` in the C++ source.
-/

namespace HW2

/-- One adjacency row: the entries `(neighbor id, edge value)` stored for one node. -/
abbrev Row (E : Type) := List (Nat × E)

/-- The whole adjacency table `adjacency_`. -/
abbrev Adj (E : Type) := List (Row E)

/-- The graph state: the two private members of `Graph` (`nodes_` and `adjacency_`).
`P` stands for the pointed-to `Point`, `V` for `node_value_type`, `E` for
`edge_value_type`. -/
structure Graph (P V E : Type) where
  nodes_ : List (P × V)
  adjacency_ : Adj E
deriving DecidableEq, Repr

variable {P V E : Type}

/-- Read row `i` of an adjacency table, empty when out of range
(used only where the C++ read is in range under the graph invariant). -/
def rowOf (adj : Adj E) (i : Nat) : Row E :=
  (adj[i]?).getD []

/-- The neighbor ids stored in a row (the `first` components). -/
def keys (r : Row E) : List Nat :=
  r.map Prod.fst

/-- `Graph::size()`: `nodes_.size()`. -/
def Graph.size (g : Graph P V E) : Nat :=
  g.nodes_.length

/-- `Graph::num_nodes()`: synonym for `size()`. -/
def Graph.num_nodes (g : Graph P V E) : Nat :=
  g.size

/-- `Graph::has_node(n)`: the handle's graph matches (trivial in the
single-container model) and `node_id_ < size()`. -/
def Graph.has_node (g : Graph P V E) (nid : Nat) : Bool :=
  decide (nid < g.size)

/-- `Node::degree()`: `adjacency_[node_id_].size()`. -/
def Graph.degree (g : Graph P V E) (nid : Nat) : Nat :=
  (rowOf g.adjacency_ nid).length

/-- `Graph::has_edge(a, b)`: scan `adjacency_[aid]` for an entry whose
`first` equals `bid`. -/
def Graph.has_edge (g : Graph P V E) (aid bid : Nat) : Bool :=
  (rowOf g.adjacency_ aid).any (fun e => e.1 == bid)

/-- `Graph::num_edges()`: sum of all adjacency-row sizes, halved. -/
def Graph.num_edges (g : Graph P V E) : Nat :=
  (g.adjacency_.foldl (fun s r => s + r.length) 0) / 2

/-- `Graph::add_node(position, value)`: push a node record and an empty
adjacency row (the value-less overload passes the default value). -/
def Graph.add_node (g : Graph P V E) (p : P) (v : V) : Graph P V E :=
  ⟨g.nodes_ ++ [(p, v)], g.adjacency_ ++ [[]]⟩

/-- `Graph::clear()`: empty both tables. -/
def Graph.clear (_ : Graph P V E) : Graph P V E :=
  ⟨[], []⟩

/-- Edge handle as produced by `add_edge`: the fields `node1_id_` and
`node2_vecid_` of `Graph::Edge` (the `graph_` back-pointer is the
container itself). -/
structure EdgeH where
  node1_id_ : Nat
  node2_vecid_ : Nat
deriving DecidableEq, Repr

/-- `Edge::Node2Id()`: `adjacency_[node1_id_][node2_vecid_].first`, as a
checked read. -/
def Graph.node2Id? (g : Graph P V E) (e : EdgeH) : Option Nat :=
  (g.adjacency_[e.node1_id_]?).bind fun r => (r[e.node2_vecid_]?).map Prod.fst

/-- The scan in `Graph::add_edge`
(`for (i = 0; i < deg; ++i) if (adjacency_[aid][i].first == bid) return ...`),
on the row suffix starting at index `i`. -/
def findSlotGo (bid : Nat) : Row E → Nat → Option Nat
  | [], _ => none
  | e :: rest, i => if e.1 = bid then some i else findSlotGo bid rest (i + 1)

/-- Index of the first entry of the row whose `first` equals `bid`. -/
def findSlot (r : Row E) (bid : Nat) : Option Nat :=
  findSlotGo bid r 0

/-- `Graph::add_edge(a, b)`.  The leading `if` models the asserts
(`aid < size`, `bid < size`, `aid != bid`); the trailing `if` models the
post-insertion assert `has_edge(a,b) and has_edge(b,a)`.  On the
already-present path the handle `(aid, i)` of the existing entry is
returned and the graph is untouched; otherwise `(bid, default)` is pushed
onto `a`'s row and `(aid, default)` onto `b`'s row, and the handle is
`(aid, adjacency_[aid].size() - 1)`. -/
def Graph.add_edge [Inhabited E] (g : Graph P V E) (aid bid : Nat) :
    Option (Graph P V E × EdgeH) :=
  if aid < g.size ∧ bid < g.size ∧ aid ≠ bid then
    match g.adjacency_[aid]? with
    | none => none
    | some rowa =>
      match findSlot rowa bid with
      | some i => some (g, ⟨aid, i⟩)
      | none =>
        let A1 := g.adjacency_.set aid (rowa ++ [(bid, default)])
        match A1[bid]? with
        | none => none
        | some rowb =>
          let g' : Graph P V E := ⟨g.nodes_, A1.set bid (rowb ++ [(aid, default)])⟩
          if g'.has_edge aid bid ∧ g'.has_edge bid aid then
            some (g', ⟨aid, rowa.length⟩)
          else none
  else none

/-- The swap-with-last-and-pop scan used by `remove_edge` and by the
reciprocal-removal loop of `remove_node`:
`for (i...; ++i) if (xs[i].first == t) { xs[i] = xs.back(); xs.pop_back(); }`.
Note `i` is incremented even after a pop, so the element swapped into
slot `i` is not re-examined. -/
def eraseLoop (xs : Row E) (i : Nat) (t : Nat) : Row E :=
  if h : i < xs.length then
    if xs[i].1 = t then
      eraseLoop ((xs.set i (xs.getLast (List.ne_nil_of_length_pos
        (Nat.lt_of_le_of_lt (Nat.zero_le i) h)))).dropLast) (i + 1) t
    else
      eraseLoop xs (i + 1) t
  else xs
termination_by xs.length - i
decreasing_by
  · simp only [List.length_dropLast, List.length_set]; omega
  · omega

/-- The swap-and-pop scan never lengthens the row. -/
theorem eraseLoop_length_le (xs : Row E) (i t : Nat) :
    (eraseLoop xs i t).length ≤ xs.length := by
  induction xs, i, t using eraseLoop.induct with
  | case1 xs i h ih =>
    rw [eraseLoop, dif_pos h, if_pos rfl]
    refine ih.trans ?_
    simp only [List.length_dropLast, List.length_set]
    omega
  | case2 xs i t h hne ih =>
    rw [eraseLoop, dif_pos h, if_neg hne]
    exact ih
  | case3 xs i t h =>
    rw [eraseLoop, dif_neg h]

/-- `Graph::remove_edge(a, b)`: validity asserts of the initial
`has_edge` call, early `false` return when the edge is absent, then the
two swap-and-pop scans; returns `!(has_edge(a, b))` on the removing path. -/
def Graph.remove_edge (g : Graph P V E) (aid bid : Nat) :
    Option (Graph P V E × Bool) :=
  if aid < g.size ∧ bid < g.size then
    if g.has_edge aid bid = false then some (g, false)
    else
      match g.adjacency_[aid]? with
      | none => none
      | some rowa =>
        let A1 := g.adjacency_.set aid (eraseLoop rowa 0 bid)
        match A1[bid]? with
        | none => none
        | some rowb =>
          let g' : Graph P V E := ⟨g.nodes_, A1.set bid (eraseLoop rowb 0 aid)⟩
          some (g', !(g'.has_edge aid bid))
  else none

/-- The reciprocal-removal loop of `remove_node`: for each entry `oid` of
`adjacency_[nid]` (re-read every iteration), run the swap-and-pop scan
deleting `nid` from `adjacency_[oid]`.  Checked reads: indexing a row out
of range is the error branch. -/
def loopA (adj : Adj E) (nid : Nat) (i : Nat) : Option (Adj E) :=
  match hrow : adj[nid]? with
  | none => none
  | some row =>
    if h : i < row.length then
      match horow : adj[row[i].1]? with
      | none => none
      | some orow =>
        loopA (adj.set row[i].1 (eraseLoop orow 0 nid)) nid (i + 1)
    else some adj
termination_by ((adj[nid]?).getD []).length - i
decreasing_by
  by_cases hc : row[i].1 = nid
  · rw [hc] at horow
    have horow' : orow = row := Option.some.inj (horow.symm.trans hrow)
    obtain ⟨hnlt, -⟩ := List.getElem?_eq_some.mp hrow
    rw [hc, List.getElem?_set_eq hnlt, horow']
    have hle := eraseLoop_length_le row 0 nid
    rw [hrow]
    simp only [Option.getD_some]
    omega
  · rw [List.getElem?_set_ne hc, hrow]
    simp only [Option.getD_some]
    omega

/-- The body of the retarget loop of `remove_node`:
`for (j...) if (adjacency_[loid][j].first == lid) adjacency_[loid][j].first = nid`. -/
def retargetRow (r : Row E) (lid nid : Nat) : Row E :=
  r.map (fun e => if e.1 = lid then (nid, e.2) else e)

/-- The retarget loop of `remove_node`: for each entry `loid` of
`adjacency_[nid]` (re-read every iteration), rewrite entries of
`adjacency_[loid]` pointing at `lid` to point at `nid`. -/
def loopC (adj : Adj E) (nid lid : Nat) (i : Nat) : Option (Adj E) :=
  match hrow : adj[nid]? with
  | none => none
  | some row =>
    if h : i < row.length then
      match hlrow : adj[row[i].1]? with
      | none => none
      | some lrow =>
        loopC (adj.set row[i].1 (retargetRow lrow lid nid)) nid lid (i + 1)
    else some adj
termination_by ((adj[nid]?).getD []).length - i
decreasing_by
  by_cases hc : row[i].1 = nid
  · rw [hc] at hlrow
    have hlrow' : lrow = row := Option.some.inj (hlrow.symm.trans hrow)
    obtain ⟨hnlt, -⟩ := List.getElem?_eq_some.mp hrow
    rw [hc, List.getElem?_set_eq hnlt, hrow]
    simp only [Option.getD_some, retargetRow, List.length_map]
    rw [hlrow']
    omega
  · rw [List.getElem?_set_ne hc, hrow]
    simp only [Option.getD_some]
    omega

/-- `Graph::remove_node(n)`: the assert `has_node(n)`, the node-table
swap-and-pop (`nodes_[nid] = nodes_[lid]; nodes_.pop_back()`), the
reciprocal-removal loop, the adjacency-table swap-and-pop
(`adjacency_[nid] = adjacency_[lid]; adjacency_.pop_back()`), and the
retarget loop — in the source's order, with every table access checked. -/
def Graph.remove_node (g : Graph P V E) (nid : Nat) : Option (Graph P V E) :=
  if nid < g.size then
    (g.nodes_[g.size - 1]?).bind fun vlast =>
      (loopA g.adjacency_ nid 0).bind fun adjA =>
        (adjA[g.size - 1]?).bind fun rowlast =>
          (loopC ((adjA.set nid rowlast).dropLast) nid (g.size - 1) 0).map fun adj3 =>
            ⟨(g.nodes_.set nid vlast).dropLast, adj3⟩
  else none

/-- The inner `while` of `EdgeIterator::fix`
(`while (outid_ < adjacency_[center_].size()) { if (center_ < ...first) return; ++outid_; }`):
scan the slots of the row from slot `idx` on (the list argument is the
row's suffix starting at `idx`) and report the first slot whose stored
neighbor id exceeds `center`. -/
def scanGo (center : Nat) : Row E → Nat → Option Nat
  | [], _ => none
  | e :: rest, idx => if center < e.1 then some idx else scanGo center rest (idx + 1)

/-- The outer `while` of `EdgeIterator::fix`
(`while (center_ < adjacency_.size()) { ...inner...; ++center_; outid_ = 0; }`):
the list argument is the adjacency-table suffix starting at row `c`. -/
def fixGo : List (Row E) → Nat → Nat → Nat × Nat
  | [], c, o => (c, o)
  | row :: rest, c, o =>
    match scanGo c (row.drop o) o with
    | some j => (c, j)
    | none => fixGo rest (c + 1) 0

/-- `EdgeIterator::fix()` on the cursor `(center_, outid_)`: advance the
slot past half-edges with `center_ >= neighbor`, moving to the next
center (slot 0) when the row is exhausted; leave the cursor unchanged
once `center_` reaches `adjacency_.size()`. -/
def fix (adj : Adj E) (center outid : Nat) : Nat × Nat :=
  fixGo (adj.drop center) center outid

/-- `Graph::edge_begin()`: the cursor `(0, 0)` — constructed without any
call to `fix`. -/
def Graph.edge_begin (_ : Graph P V E) : Nat × Nat :=
  (0, 0)

/-- `Graph::edge_end()`: the cursor `(adjacency_.size(), 0)`. -/
def Graph.edge_end (g : Graph P V E) : Nat × Nat :=
  (g.adjacency_.length, 0)

/-- `EdgeIterator::operator++`: `++outid_; fix();`. -/
def incCursor (adj : Adj E) (c o : Nat) : Nat × Nat :=
  fix adj c (o + 1)

/-- Dereferencing the edge iterator and reading the two endpoint ids of
the yielded `Edge(graph_, center_, outid_)`: `(center_, Node2Id())`, the
neighbor id read from `adjacency_[center_][outid_]` (defaulted when out
of range; in range whenever the cursor is normalized). -/
def derefPair [Inhabited E] (adj : Adj E) (c o : Nat) : Nat × Nat :=
  (c, ((rowOf adj c)[o]?.getD (0, default)).1)

/-- Client-side edge iteration `for (ei = edge_begin(); ei != edge_end(); ++ei)`:
yield the endpoint ids at the cursor, then increment.  The `!=` test uses
`EdgeIterator::operator==`, which on a same-graph pair reduces to comparing
the centers (its `outid_` comparison compares `outid_` with itself).  `fuel`
is an upper bound on the number of iterations, supplied by `edge_list`. -/
def edgeListAux [Inhabited E] (adj : Adj E) : Nat → Nat → Nat → List (Nat × Nat)
  | 0, _, _ => []
  | fuel + 1, c, o =>
    if c = adj.length then []
    else
      let p := derefPair adj c o
      let q := incCursor adj c o
      p :: edgeListAux adj fuel q.1 q.2

/-- All edges yielded by iterating an `EdgeIterator` from `edge_begin()`
to `edge_end()`, as `(node1 id, node2 id)` pairs. -/
def Graph.edge_list [Inhabited E] (g : Graph P V E) : List (Nat × Nat) :=
  edgeListAux g.adjacency_
    (g.adjacency_.foldl (fun s r => s + r.length) 0 + g.adjacency_.length + 1) 0 0

/-- Is the cursor normalized: it is the terminal sentinel
(`center_ == adjacency_.size()`), or it references an in-range adjacency
entry whose center id is smaller than the stored neighbor id. -/
def normalCursor (adj : Adj E) (cur : Nat × Nat) : Prop :=
  cur.1 = adj.length ∨
    (cur.1 < adj.length ∧ ∃ e, (rowOf adj cur.1)[cur.2]? = some e ∧ cur.1 < e.1)

instance (adj : Adj E) (cur : Nat × Nat) : Decidable (normalCursor adj cur) := by
  unfold normalCursor
  exact inferInstance

/-- The state of an `EdgeIterator` handle: the `graph_` back-pointer
(modelled as a numeric pointer token) and the two cursor fields. -/
structure EdgeIter where
  graph_ : Nat
  center_ : Nat
  outid_ : Nat
deriving DecidableEq, Repr

/-- `EdgeIterator::operator==`, translated verbatim: it compares
`graph_ == ei.graph_ and center_ == ei.center_ and outid_ == outid_` —
the last conjunct compares the iterator's own `outid_` with itself. -/
def eiEq (a b : EdgeIter) : Bool :=
  (a.graph_ == b.graph_) && (a.center_ == b.center_) && (a.outid_ == a.outid_)

/-- An `Edge` handle together with its `graph_` back-pointer, for the
cross-container comparison `Edge::operator<`.  The pointer is modelled as
a numeric token; an environment maps tokens to graph states. -/
structure EdgePtr where
  graph_ : Nat
  node1_id_ : Nat
  node2_vecid_ : Nat
deriving DecidableEq, Repr

/-- `Edge::Node2Id()` for a pointer-carrying handle:
`adjacency_[node1_id_][node2_vecid_].first` in the handle's own graph. -/
def Node2Id [Inhabited E] (env : Nat → Graph P V E) (e : EdgePtr) : Nat :=
  ((rowOf (env e.graph_).adjacency_ e.node1_id_)[e.node2_vecid_]?.getD (0, default)).1

/-- `Edge::operator<`, translated verbatim:
`(graph_ < e.graph_) or ((graph_ == e.graph_) and ((curmin < emin) or
((curmin == emin) and (curmax < emax))))` with
`curmin/curmax = min/max(node1_id_, Node2Id())` of each side. -/
def edge_lt [Inhabited E] (env : Nat → Graph P V E) (e1 e2 : EdgePtr) : Bool :=
  let curmin := min e1.node1_id_ (Node2Id env e1)
  let curmax := max e1.node1_id_ (Node2Id env e1)
  let emin := min e2.node1_id_ (Node2Id env e2)
  let emax := max e2.node1_id_ (Node2Id env e2)
  decide (e1.graph_ < e2.graph_) ||
    (decide (e1.graph_ = e2.graph_) &&
      (decide (curmin < emin) || (decide (curmin = emin) && decide (curmax < emax))))

/-- Modelled from the spec's words for comparison with `edge_lt` (claim C8):
"Ordering is lexicographic on `(min(endpoint ids), max(endpoint ids))`, then
by container" with the endpoint-pair comparison taking precedence over the
container comparison, the container comparing only as a tie-break when the
two pairs are equal. -/
def edge_lt_specOrder [Inhabited E] (env : Nat → Graph P V E) (e1 e2 : EdgePtr) : Bool :=
  let curmin := min e1.node1_id_ (Node2Id env e1)
  let curmax := max e1.node1_id_ (Node2Id env e1)
  let emin := min e2.node1_id_ (Node2Id env e2)
  let emax := max e2.node1_id_ (Node2Id env e2)
  decide (curmin < emin) || (decide (curmin = emin) && decide (curmax < emax)) ||
    (decide (curmin = emin) && decide (curmax = emax) && decide (e1.graph_ < e2.graph_))

/-! ### The structural invariant of reachable graph states -/

/-- The representation invariant the container maintains: the node table
and the adjacency table have equal lengths (I1), every stored neighbor id
is a valid id distinct from its home row (I2), no row stores two
half-edges to the same neighbor (I3), and every half-edge has a
reciprocal (I4). -/
def Inv (g : Graph P V E) : Prop :=
  g.nodes_.length = g.adjacency_.length ∧
  (∀ i, ∀ e ∈ rowOf g.adjacency_ i, e.1 < g.adjacency_.length ∧ e.1 ≠ i) ∧
  (∀ i, (keys (rowOf g.adjacency_ i)).Nodup) ∧
  (∀ i j, j ∈ keys (rowOf g.adjacency_ i) → i ∈ keys (rowOf g.adjacency_ j))

/-- The graph states reachable from the empty graph (the default
constructor) by any sequence of the five public mutators. A mutator
whose checked embedding returns `none` faulted in the C++ (an assert or
an out-of-bounds access): a faulted run produces no post-state, so only
`some` outcomes extend the reachable set. -/
inductive Reachable [Inhabited E] : Graph P V E → Prop where
  | empty : Reachable ⟨[], []⟩
  | add_node (g : Graph P V E) (p : P) (v : V) :
      Reachable g → Reachable (g.add_node p v)
  | add_edge (g g1 : Graph P V E) (a b : Nat) (e1 : EdgeH) :
      Reachable g → g.add_edge a b = some (g1, e1) → Reachable g1
  | remove_node (g g1 : Graph P V E) (n : Nat) :
      Reachable g → g.remove_node n = some g1 → Reachable g1
  | remove_edge (g g1 : Graph P V E) (a b : Nat) (r : Bool) :
      Reachable g → g.remove_edge a b = some (g1, r) → Reachable g1
  | clear (g : Graph P V E) : Reachable g → Reachable g.clear

/-! ### Concrete graphs for the scenario claims, built through the operations -/

/-- The empty graph (the default constructor), over trivial payload types. -/
def emptyU : Graph Unit Unit Unit := ⟨[], []⟩

/-- One `add_node` on the empty graph. -/
def oneNodeG : Graph Unit Unit Unit := emptyU.add_node () ()

/-- Two `add_node`s on the empty graph. -/
def twoNodesG : Graph Unit Unit Unit := oneNodeG.add_node () ()

/-- Two nodes joined by the single edge (0,1). -/
def path2? : Option (Graph Unit Unit Unit) :=
  (twoNodesG.add_edge 0 1).map Prod.fst

/-- The graph state `path2?` produces. -/
def path2 : Graph Unit Unit Unit :=
  ⟨[((), ()), ((), ())], [[(1, ())], [(0, ())]]⟩

/-- Four nodes with the cycle edges (0,1), (1,2), (2,3), (3,0). -/
def cycle4? : Option (Graph Unit Unit Unit) :=
  (((((twoNodesG.add_node () ()).add_node () ()).add_edge 0 1).bind
    (fun p => p.1.add_edge 1 2)).bind
    (fun p => p.1.add_edge 2 3)).bind
    (fun p => p.1.add_edge 3 0) |>.map Prod.fst

/-- The graph state `cycle4?` produces. -/
def cycle4 : Graph Unit Unit Unit :=
  ⟨[((), ()), ((), ()), ((), ()), ((), ())],
   [[(1, ()), (3, ())], [(0, ()), (2, ())], [(1, ()), (3, ())], [(2, ()), (0, ())]]⟩

/-- Three nodes with the single edge (1,2): node 0 has an empty adjacency row
while the graph has an edge. -/
def isoZero3? : Option (Graph Unit Unit Unit) :=
  ((twoNodesG.add_node () ()).add_edge 1 2).map Prod.fst

/-- The graph state `isoZero3?` produces. -/
def isoZero3 : Graph Unit Unit Unit :=
  ⟨[((), ()), ((), ()), ((), ())], [[], [(2, ())], [(1, ())]]⟩

/-- First container of the C8 counterexample: four nodes, edge (2,3). -/
def gA : Graph Unit Unit Unit :=
  ⟨[((), ()), ((), ()), ((), ()), ((), ())], [[], [], [(3, ())], [(2, ())]]⟩

/-- Second container of the C8 counterexample: two nodes, edge (0,1). -/
def gB : Graph Unit Unit Unit :=
  ⟨[((), ()), ((), ())], [[(1, ())], [(0, ())]]⟩

/-- Pointer environment for the C8 counterexample: token 0 is `gA`
(the lower pointer), every other token is `gB`. -/
def envAB : Nat → Graph Unit Unit Unit :=
  fun t => if t = 0 then gA else gB


/-! ### Basic facts about the `add_edge` scan -/

theorem findSlotGo_nil {bid i : Nat} : findSlotGo (E := E) bid [] i = none :=
  rfl

theorem findSlotGo_cons {bid : Nat} {e : Nat × E} {rest : Row E} {i : Nat} :
    findSlotGo bid (e :: rest) i = if e.1 = bid then some i else findSlotGo bid rest (i + 1) :=
  rfl

theorem findSlotGo_eq_none {bid : Nat} {r : Row E} {i : Nat} :
    findSlotGo bid r i = none ↔ ∀ e ∈ r, e.1 ≠ bid := by
  induction r generalizing i with
  | nil => simp [findSlotGo_nil]
  | cons e rest ih =>
    by_cases h : e.1 = bid
    · simp [findSlotGo_cons, h]
    · simp [findSlotGo_cons, h, ih]

theorem findSlotGo_some_get {bid : Nat} {r : Row E} {i j : Nat}
    (h : findSlotGo bid r i = some j) :
    i ≤ j ∧ ∃ ej, r[j - i]? = some ej ∧ ej.1 = bid := by
  induction r generalizing i with
  | nil => simp [findSlotGo_nil] at h
  | cons e rest ih =>
    by_cases he : e.1 = bid
    · rw [findSlotGo_cons, if_pos he] at h
      obtain rfl := Option.some.inj h
      exact ⟨Nat.le_refl _, ⟨e, by simp, he⟩⟩
    · rw [findSlotGo_cons, if_neg he] at h
      obtain ⟨hij, ej, hget, hej⟩ := ih h
      refine ⟨by omega, ⟨ej, ?_, hej⟩⟩
      have hji : j - i = (j - (i + 1)) + 1 := by omega
      rw [hji]
      simpa using hget

theorem findSlot_some_get {bid : Nat} {r : Row E} {j : Nat}
    (h : findSlot r bid = some j) :
    ∃ ej, r[j]? = some ej ∧ ej.1 = bid := by
  obtain ⟨-, ej, hget, hej⟩ := findSlotGo_some_get h
  exact ⟨ej, by simpa using hget, hej⟩

theorem findSlot_eq_none {bid : Nat} {r : Row E} :
    findSlot r bid = none ↔ ∀ e ∈ r, e.1 ≠ bid :=
  findSlotGo_eq_none

theorem findSlotGo_append_match {bid : Nat} {x : Nat × E} (r : Row E) (i : Nat)
    (h : findSlotGo bid r i = none) (hx : x.1 = bid) :
    findSlotGo bid (r ++ [x]) i = some (i + r.length) := by
  induction r generalizing i with
  | nil => simp [findSlotGo_cons, findSlotGo_nil, hx]
  | cons e rest ih =>
    by_cases he : e.1 = bid
    · rw [findSlotGo_cons, if_pos he] at h
      exact absurd h (by simp)
    · rw [findSlotGo_cons, if_neg he] at h
      rw [List.cons_append, findSlotGo_cons, if_neg he, ih _ h, List.length_cons]
      congr 1
      omega

/-- Inversion of a successful `add_edge`: either the edge already existed
(graph unchanged, handle at the found slot), or both half-edges were
appended and the handle sits at the end of `a`'s row. -/
theorem add_edge_some_inv [Inhabited E] {g g1 : Graph P V E} {aid bid : Nat} {e1 : EdgeH}
    (h : g.add_edge aid bid = some (g1, e1)) :
    (aid < g.size ∧ bid < g.size ∧ aid ≠ bid) ∧
      ((∃ rowa i, g.adjacency_[aid]? = some rowa ∧ findSlot rowa bid = some i ∧
          g1 = g ∧ e1 = ⟨aid, i⟩) ∨
        (∃ rowa rowb, g.adjacency_[aid]? = some rowa ∧ findSlot rowa bid = none ∧
          (g.adjacency_.set aid (rowa ++ [(bid, default)]))[bid]? = some rowb ∧
          g1 = ⟨g.nodes_,
            (g.adjacency_.set aid (rowa ++ [(bid, default)])).set bid
              (rowb ++ [(aid, default)])⟩ ∧
          e1 = ⟨aid, rowa.length⟩)) := by
  unfold Graph.add_edge at h
  split at h
  · rename_i hvalid
    refine ⟨hvalid, ?_⟩
    split at h
    · exact absurd h (by simp)
    · rename_i rowa hget
      split at h
      · rename_i i hfind
        obtain ⟨rfl, rfl⟩ := Prod.mk.injEq .. ▸ Option.some.inj h
        exact Or.inl ⟨rowa, i, hget, hfind, rfl, rfl⟩
      · rename_i hfind
        dsimp only [] at h
        split at h
        · exact absurd h (by simp)
        · rename_i rowb hgetb
          split at h
          · rename_i hhe
            obtain ⟨rfl, rfl⟩ := Prod.mk.injEq .. ▸ Option.some.inj h
            exact Or.inr ⟨rowa, rowb, hget, hfind, hgetb, rfl, rfl⟩
          · exact absurd h (by simp)
  · exact absurd h (by simp)

/-! ### Claim theorems: concrete evaluations -/

/-- The reciprocal erase of node 1 inside `remove_node path2 1`. -/
theorem eraseLoop_path2_eval : eraseLoop (E := Unit) [(1, ())] 0 1 = [] := by
  rw [eraseLoop]
  norm_num
  rw [eraseLoop]
  norm_num

/-- The reciprocal-removal loop of `remove_node path2 1`. -/
theorem loopA_path2_eval : loopA (E := Unit) [[(1, ())], [(0, ())]] 1 0 = some [[], [(0, ())]] := by
  rw [loopA]
  show loopA ([[(1, ())], [(0, ())]].set 0 (eraseLoop [(1, ())] 0 1)) 1 1 = some [[], [(0, ())]]
  rw [eraseLoop_path2_eval, loopA]
  rfl

/-- The retarget loop of `remove_node path2 1` reads row 1 of a 1-row table. -/
theorem loopC_path2_eval : loopC (E := Unit) [[]] 1 1 0 = none := by
  rw [loopC]
  rfl

/-- C1: the claim "`remove_node(n)` decreases `size()` by exactly 1 and
`num_edges()` by exactly the pre-removal degree for every valid node handle"
fails on the code for the node with the largest id: on the two-node graph
with edge (0,1), removing node 1 (valid, degree 1) makes the retarget loop
index `adjacency_[nid]` with `nid` equal to the shrunken table's size, so
the checked embedding returns `none` instead of a 1-smaller graph. -/
theorem C1_remove_last_node_fails :
    path2? = some path2 ∧ path2.has_node 1 = true ∧ path2.size = 2 ∧
      path2.degree 1 = 1 ∧ path2.num_edges = 1 ∧ path2.remove_node 1 = none := by
  refine ⟨rfl, rfl, rfl, rfl, rfl, ?_⟩
  rw [Graph.remove_node, if_pos (by decide : (1 : Nat) < path2.size)]
  show (some (((), ()) : Unit × Unit)).bind (fun vlast =>
    (loopA [[(1, ())], [(0, ())]] 1 0).bind fun adjA =>
    ((adjA[1]?).bind fun rowlast =>
      (loopC ((adjA.set 1 rowlast).dropLast) 1 1 0).map fun adj3 =>
        (⟨([((), ()), ((), ())].set 1 vlast).dropLast, adj3⟩ : Graph Unit Unit Unit))) = none
  rw [Option.some_bind, loopA_path2_eval, Option.some_bind]
  rw [show (([[], [(0, ())]] : Adj Unit))[1]? = some [(0, ())] from rfl, Option.some_bind]
  rw [show (([[], [(0, ())]] : Adj Unit).set 1 [(0, ())]).dropLast = ([[]] : Adj Unit) from rfl,
    loopC_path2_eval]
  rfl

/-- The (empty) reciprocal-removal loop of `remove_node oneNodeG 0`. -/
theorem loopA_oneNode_eval : loopA (E := Unit) [[]] 0 0 = some [[]] := by
  rw [loopA]
  rfl

/-- The retarget loop of `remove_node oneNodeG 0` reads row 0 of an empty table. -/
theorem loopC_oneNode_eval : loopC (E := Unit) [] 0 0 0 = none := by
  rw [loopC]
  rfl

/-- C2: the claim "every table access performed by `remove_node(n)` on a
valid node is in bounds, including the node with the largest id" fails on
the code: removing the unique node of a one-node graph (the node with the
largest id) drives the retarget loop to read `adjacency_[nid]` with
`nid == adjacency_.size()` after the pop, so the Option-returning embedding
hits its error branch. -/
theorem C2_remove_node_oob :
    oneNodeG.has_node 0 = true ∧ oneNodeG.remove_node 0 = none := by
  refine ⟨rfl, ?_⟩
  rw [Graph.remove_node, if_pos (by decide : (0 : Nat) < oneNodeG.size)]
  show (some (((), ()) : Unit × Unit)).bind (fun vlast =>
    (loopA [[]] 0 0).bind fun adjA =>
    ((adjA[0]?).bind fun rowlast =>
      (loopC ((adjA.set 0 rowlast).dropLast) 0 0 0).map fun adj3 =>
        (⟨([((), ())].set 0 vlast).dropLast, adj3⟩ : Graph Unit Unit Unit))) = none
  rw [Option.some_bind, loopA_oneNode_eval, Option.some_bind]
  rw [show (([[]] : Adj Unit))[0]? = some [] from rfl, Option.some_bind]
  rw [show (([[]] : Adj Unit).set 0 []).dropLast = ([] : Adj Unit) from rfl, loopC_oneNode_eval]
  rfl

/-- C3: on the 4-node cycle built by adding nodes 0..3 and edges
(0,1), (1,2), (2,3), (3,0), iterating from `edge_begin()` to `edge_end()`
yields exactly 4 edges; their unordered endpoint pairs are exactly
{0,1}, {1,2}, {2,3}, {3,0} with no repetition, and every surfaced half-edge
has its center id below its neighbor id. -/
theorem C3_cycle4_edge_iteration :
    cycle4? = some cycle4 ∧
      cycle4.edge_list = [(0, 1), (0, 3), (1, 2), (2, 3)] ∧
      cycle4.edge_list.length = 4 ∧
      (cycle4.edge_list.map (fun p => (min p.1 p.2, max p.1 p.2))).Perm
        [(0, 1), (1, 2), (2, 3), (0, 3)] ∧
      (cycle4.edge_list.map (fun p => (min p.1 p.2, max p.1 p.2))).Nodup ∧
      ∀ p ∈ cycle4.edge_list, p.1 < p.2 := by
  decide

/-- C4: the claim "`edge_begin()` is already normalized at construction"
fails on the code: `edge_begin` builds the cursor (0, 0) without calling
`fix`, so on the 3-node graph with the single edge (1,2) — where node 0's
adjacency row is empty — the returned cursor differs from `edge_end()` yet
references no in-range adjacency entry. -/
theorem C4_edge_begin_not_normalized :
    isoZero3? = some isoZero3 ∧ 0 < isoZero3.num_edges ∧
      isoZero3.edge_begin = (0, 0) ∧ isoZero3.edge_begin ≠ isoZero3.edge_end ∧
      ¬ normalCursor isoZero3.adjacency_ isoZero3.edge_begin := by
  decide

/-- C7: `remove_edge(a, b)` on a valid pair with no edge between them
returns `false` and leaves the graph — in particular `num_edges()` —
completely unchanged. -/
theorem C7_remove_edge_absent_noop (g : Graph P V E) (aid bid : Nat)
    (h1 : aid < g.size) (h2 : bid < g.size) (h3 : g.has_edge aid bid = false) :
    g.remove_edge aid bid = some (g, false) := by
  unfold Graph.remove_edge
  rw [if_pos ⟨h1, h2⟩, if_pos h3]

/-- Witness for C7 on the edgeless two-node graph. -/
theorem C7_witness :
    twoNodesG.has_edge 0 1 = false ∧ twoNodesG.remove_edge 0 1 = some (twoNodesG, false) :=
  ⟨rfl, C7_remove_edge_absent_noop twoNodesG 0 1 (by decide) (by decide) rfl⟩

/-- C8 counterexample: two containers whose pointer tokens order as
`gA < gB`, an edge with endpoint pair (2,3) in `gA` and an edge with
endpoint pair (0,1) in `gB`.  The code's `operator<` compares the
containers first and returns `true`, while the claimed ordering —
endpoint pairs first, containers only to break ties between equal pairs —
returns `false` because (2,3) is not lexicographically below (0,1). -/
theorem C8_counterexample :
    Node2Id envAB ⟨0, 2, 0⟩ = 3 ∧ Node2Id envAB ⟨1, 0, 0⟩ = 1 ∧
      edge_lt envAB ⟨0, 2, 0⟩ ⟨1, 0, 0⟩ = true ∧
      edge_lt_specOrder envAB ⟨0, 2, 0⟩ ⟨1, 0, 0⟩ = false := by
  refine ⟨rfl, rfl, rfl, rfl⟩

/-- C8 amended: `Edge::operator<` is lexicographic on the container
pointer FIRST and only then on `(min(endpoint ids), max(endpoint ids))`;
the container comparison takes precedence also between different
containers. -/
theorem C8_amended_order [Inhabited E] (env : Nat → Graph P V E) (e1 e2 : EdgePtr) :
    edge_lt env e1 e2 = true ↔
      (e1.graph_ < e2.graph_ ∨
        (e1.graph_ = e2.graph_ ∧
          (min e1.node1_id_ (Node2Id env e1) < min e2.node1_id_ (Node2Id env e2) ∨
            (min e1.node1_id_ (Node2Id env e1) = min e2.node1_id_ (Node2Id env e2) ∧
              max e1.node1_id_ (Node2Id env e1) < max e2.node1_id_ (Node2Id env e2))))) := by
  simp [edge_lt]

/-- C6: on distinct valid nodes, a second `add_edge(a, b)` after a first
call returns the same graph (so `num_edges()` is unchanged), and both
calls return a handle whose `node1()` is `a` and whose `node2()` is `b`. -/
theorem C6_add_edge_idempotent [Inhabited E] (g g1 : Graph P V E) (aid bid : Nat) (e1 : EdgeH)
    (h1 : aid < g.size) (h2 : bid < g.size) (h3 : aid ≠ bid)
    (h4 : g.add_edge aid bid = some (g1, e1)) :
    (e1.node1_id_ = aid ∧ g1.node2Id? e1 = some bid) ∧
      (∃ e2 : EdgeH, g1.add_edge aid bid = some (g1, e2) ∧
        e2.node1_id_ = aid ∧ g1.node2Id? e2 = some bid) ∧
      ∀ g2 e2, g1.add_edge aid bid = some (g2, e2) → g2.num_edges = g1.num_edges := by
  obtain ⟨⟨hv1, hv2, hv3⟩, hcases⟩ := add_edge_some_inv h4
  rcases hcases with ⟨rowa, i, hget, hfind, rfl, rfl⟩ |
    ⟨rowa, rowb, hget, hfind, hgetb, rfl, rfl⟩
  · have hn2 : g1.node2Id? ⟨aid, i⟩ = some bid := by
      obtain ⟨ej, hej, hejb⟩ := findSlot_some_get hfind
      simp [Graph.node2Id?, hget, hej, hejb]
    refine ⟨⟨rfl, hn2⟩, ⟨⟨aid, i⟩, h4, rfl, hn2⟩, ?_⟩
    intro g2 e2 heq
    rw [h4] at heq
    obtain rfl : g1 = g2 := congrArg Prod.fst (Option.some.inj heq)
    rfl
  · obtain ⟨haLen, -⟩ := List.getElem?_eq_some.mp hget
    have hA1aid : (g.adjacency_.set aid (rowa ++ [(bid, default)]))[aid]? =
        some (rowa ++ [(bid, default)]) := List.getElem?_set_eq haLen
    have hg1adj : ((g.adjacency_.set aid (rowa ++ [(bid, default)])).set bid
        (rowb ++ [(aid, default)]))[aid]? = some (rowa ++ [(bid, default)]) := by
      rw [List.getElem?_set_ne (Ne.symm h3)]
      exact hA1aid
    have hn2 : (Graph.mk (P := P) g.nodes_
        ((g.adjacency_.set aid (rowa ++ [(bid, default)])).set bid
          (rowb ++ [(aid, default)]))).node2Id? ⟨aid, rowa.length⟩ = some bid := by
      simp [Graph.node2Id?, hg1adj, List.getElem?_concat_length]
    have hfind2 : findSlot (rowa ++ [(bid, default)]) bid = some rowa.length := by
      have hap : findSlotGo bid (rowa ++ [((bid, default) : Nat × E)]) 0 =
          some (0 + rowa.length) := findSlotGo_append_match rowa 0 hfind rfl
      simpa [findSlot] using hap
    have hsecond : (Graph.mk (P := P) g.nodes_
        ((g.adjacency_.set aid (rowa ++ [(bid, default)])).set bid
          (rowb ++ [(aid, default)]))).add_edge aid bid =
        some (Graph.mk (P := P) g.nodes_
          ((g.adjacency_.set aid (rowa ++ [(bid, default)])).set bid
            (rowb ++ [(aid, default)])), ⟨aid, rowa.length⟩) := by
      unfold Graph.add_edge
      rw [if_pos ⟨hv1, hv2, hv3⟩]
      simp only [hg1adj, hfind2]
    refine ⟨⟨rfl, hn2⟩, ⟨⟨aid, rowa.length⟩, hsecond, rfl, hn2⟩, ?_⟩
    intro g2 e2 heq
    rw [hsecond] at heq
    obtain rfl := congrArg Prod.fst (Option.some.inj heq)
    rfl

/-- Witness for C6 on the two-node graph: both calls of `add_edge 0 1`
return the edge (0,1) and the second changes nothing. -/
theorem C6_witness :
    twoNodesG.add_edge 0 1 = some (path2, ⟨0, 0⟩) ∧
      ((EdgeH.node1_id_ ⟨0, 0⟩ = 0 ∧ path2.node2Id? ⟨0, 0⟩ = some 1) ∧
        (∃ e2 : EdgeH, path2.add_edge 0 1 = some (path2, e2) ∧
          e2.node1_id_ = 0 ∧ path2.node2Id? e2 = some 1) ∧
        ∀ g2 e2, path2.add_edge 0 1 = some (g2, e2) → g2.num_edges = path2.num_edges) :=
  ⟨rfl, C6_add_edge_idempotent twoNodesG path2 0 1 ⟨0, 0⟩ (by decide) (by decide)
    (by decide) rfl⟩

/-- C9: `EdgeIterator::operator==` compares the graph pointers and the
center cursors but its third conjunct compares the iterator's own
`outid_` with itself, so two iterators on the same graph with equal
centers compare equal whatever their slot cursors are. -/
theorem C9_eiEq_ignores_outid (t c o1 o2 : Nat) :
    eiEq ⟨t, c, o1⟩ ⟨t, c, o2⟩ = true := by
  simp [eiEq]

/-! ### Row and key-set helpers -/

theorem rowOf_eq_of_lt {adj : Adj E} {i : Nat} (h : i < adj.length) :
    adj[i]? = some (rowOf adj i) := by
  rw [List.getElem?_eq_getElem h]
  rw [rowOf, List.getElem?_eq_getElem h]
  rfl

theorem rowOf_of_ge {adj : Adj E} {i : Nat} (h : adj.length ≤ i) :
    rowOf adj i = [] := by
  rw [rowOf, List.getElem?_eq_none_iff.mpr h]
  rfl

theorem rowOf_set_self {adj : Adj E} {i : Nat} {r : Row E} (h : i < adj.length) :
    rowOf (adj.set i r) i = r := by
  rw [rowOf, List.getElem?_set_eq h]
  rfl

theorem rowOf_set_ne {adj : Adj E} {i j : Nat} {r : Row E} (h : i ≠ j) :
    rowOf (adj.set i r) j = rowOf adj j := by
  rw [rowOf, List.getElem?_set_ne h, rowOf]

theorem rowOf_dropLast {adj : Adj E} {j : Nat} (h : j < adj.length - 1) :
    rowOf adj.dropLast j = rowOf adj j := by
  rw [rowOf, rowOf, List.dropLast_eq_take, List.getElem?_take_of_lt h]

theorem mem_keys_iff {r : Row E} {k : Nat} :
    k ∈ keys r ↔ ∃ e ∈ r, e.1 = k := by
  simp [keys]

theorem has_edge_iff_mem_keys {g : Graph P V E} {a b : Nat} :
    g.has_edge a b = true ↔ b ∈ keys (rowOf g.adjacency_ a) := by
  rw [Graph.has_edge, List.any_eq_true, mem_keys_iff]
  constructor
  · rintro ⟨e, he, heq⟩
    exact ⟨e, he, by simpa using heq⟩
  · rintro ⟨e, he, heq⟩
    exact ⟨e, he, by simpa using heq⟩

/-! ### The swap-with-last-and-pop step is a permutation of erasing -/

theorem set_getElem_self {α : Type} (l : List α) (i : Nat) (h : i < l.length) :
    l.set i l[i] = l := by
  rw [List.set_eq_take_cons_drop _ h, ← List.drop_eq_getElem_cons h, List.take_append_drop]

theorem swap_pop_perm {α : Type} (xs : List α) (i : Nat) (h : i < xs.length)
    (hne : xs ≠ []) :
    ((xs.set i (xs.getLast hne)).dropLast).Perm (xs.eraseIdx i) := by
  rcases Nat.lt_or_ge i (xs.length - 1) with hi | hi
  · -- not the last slot: the last element moves to slot i and the tail shrinks
    have hdrop_ne : xs.drop (i + 1) ≠ [] := by
      intro hc
      have := List.drop_eq_nil_iff_le.mp hc
      omega
    rw [List.set_eq_take_cons_drop _ h,
      List.dropLast_append_of_ne_nil _ (by simp),
      List.eraseIdx_eq_take_drop_succ]
    refine List.Perm.append_left _ ?_
    have hdl : (xs.getLast hne :: xs.drop (i + 1)).dropLast =
        xs.getLast hne :: (xs.drop (i + 1)).dropLast := by
      cases hd : xs.drop (i + 1) with
      | nil => exact absurd hd hdrop_ne
      | cons y ys => simp
    rw [hdl]
    have hsplit : (xs.drop (i + 1)).dropLast ++ [xs.getLast hne] = xs.drop (i + 1) := by
      have h1 := List.dropLast_concat_getLast hdrop_ne
      rw [List.getLast_drop hdrop_ne] at h1
      exact h1
    exact (List.perm_append_singleton _ _).symm.trans
      (by rw [hsplit] : ((xs.drop (i + 1)).dropLast ++ [xs.getLast hne]).Perm (xs.drop (i + 1)))
  · -- the last slot: writing the last element back and popping is plain erasure
    have hieq : i = xs.length - 1 := by omega
    have hlast : xs.getLast hne = xs[i] := by
      rw [List.getLast_eq_getElem xs hne]
      congr 1
      omega
    rw [hlast, set_getElem_self, List.eraseIdx_eq_take_drop_succ, List.dropLast_eq_take]
    have hnil : xs.drop (i + 1) = [] := List.drop_eq_nil_iff_le.mpr (by omega)
    rw [hnil, List.append_nil, hieq]

/-! ### Characterization of the swap-and-pop scan -/

theorem eraseLoop_of_no_match (xs : Row E) (i t : Nat)
    (hcl : ∀ e ∈ xs, e.1 ≠ t) : eraseLoop xs i t = xs := by
  induction xs, i, t using eraseLoop.induct with
  | case1 xs i h ih =>
    exact absurd rfl (hcl xs[i] (List.getElem_mem h))
  | case2 xs i t h hne ih =>
    rw [eraseLoop, dif_pos h, if_neg hne]
    exact ih hcl
  | case3 xs i t h =>
    rw [eraseLoop, dif_neg h]

theorem eraseLoop_perm_filter (xs : Row E) (i t : Nat)
    (hnd : (keys xs).Nodup)
    (hpre : ∀ j, ∀ hj : j < xs.length, j < i → xs[j].1 ≠ t) :
    (eraseLoop xs i t).Perm (xs.filter (fun e => e.1 != t)) := by
  induction xs, i, t using eraseLoop.induct with
  | case1 xs i h ih =>
    rw [eraseLoop, dif_pos h, if_pos rfl]
    have hne : xs ≠ [] := List.ne_nil_of_length_pos (by omega)
    have hperm := swap_pop_perm xs i h hne
    have hdropc : xs.drop i = xs[i] :: xs.drop (i + 1) := List.drop_eq_getElem_cons h
    have hxs : xs.take i ++ xs[i] :: xs.drop (i + 1) = xs := by
      rw [← hdropc, List.take_append_drop]
    have hkeys : keys xs = keys (xs.take i) ++ xs[i].1 :: keys (xs.drop (i + 1)) := by
      conv_lhs => rw [← hxs]
      rw [keys, List.map_append, List.map_cons]
      rfl
    have hnd2 : xs[i].1 ∉ keys (xs.drop (i + 1)) := by
      rw [hkeys] at hnd
      exact (List.nodup_cons.mp (List.nodup_append.mp hnd).2.1).1
    have htake : ∀ e ∈ xs.take i, e.1 ≠ xs[i].1 := by
      intro e he
      obtain ⟨j, hj, hje⟩ := List.mem_iff_getElem.mp he
      have hjlen : j < i := by
        have hj2 := hj
        rw [List.length_take] at hj2
        omega
      have hjx : j < xs.length := by omega
      rw [← hje, List.getElem_take]
      exact hpre j hjx hjlen
    have hdropclean : ∀ e ∈ xs.drop (i + 1), e.1 ≠ xs[i].1 := by
      intro e he hc
      exact hnd2 (mem_keys_iff.mpr ⟨e, he, hc⟩)
    have hclean : ∀ e ∈ (xs.set i (xs.getLast hne)).dropLast, e.1 ≠ xs[i].1 := by
      intro e he
      have he2 : e ∈ xs.eraseIdx i := hperm.subset he
      rw [List.eraseIdx_eq_take_drop_succ] at he2
      rcases List.mem_append.mp he2 with h1 | h2
      · exact htake e h1
      · exact hdropclean e h2
    rw [eraseLoop_of_no_match _ _ _ hclean]
    have hfilter : xs.filter (fun e => e.1 != xs[i].1) = xs.eraseIdx i := by
      have hstep : (xs.take i ++ xs[i] :: xs.drop (i + 1)).filter
          (fun e => e.1 != xs[i].1) = xs.take i ++ xs.drop (i + 1) := by
        rw [List.filter_append,
          List.filter_eq_self.mpr (fun e he => by simpa using htake e he),
          List.filter_cons_of_neg (by simp),
          List.filter_eq_self.mpr (fun e he => by simpa using hdropclean e he)]
      calc xs.filter (fun e => e.1 != xs[i].1)
          = (xs.take i ++ xs[i] :: xs.drop (i + 1)).filter (fun e => e.1 != xs[i].1) := by
            rw [hxs]
        _ = xs.take i ++ xs.drop (i + 1) := hstep
        _ = xs.eraseIdx i := (List.eraseIdx_eq_take_drop_succ _ _).symm
    rw [hfilter]
    exact hperm
  | case2 xs i t h hne ih =>
    rw [eraseLoop, dif_pos h, if_neg hne]
    refine ih hnd ?_
    intro j hj hji
    rcases Nat.lt_or_ge j i with hlt | hge
    · exact hpre j hj hlt
    · have hji2 : j = i := by omega
      subst hji2
      exact hne
  | case3 xs i t h =>
    have hfl : xs.filter (fun e => e.1 != t) = xs := by
      refine List.filter_eq_self.mpr ?_
      intro e he
      obtain ⟨j, hj, hje⟩ := List.mem_iff_getElem.mp he
      subst hje
      simpa using hpre j hj (by omega)
    rw [eraseLoop, dif_neg h, hfl]

/-- Keys of a filtered row are the filtered keys. -/
theorem keys_filter_ne (xs : Row E) (t : Nat) :
    keys (xs.filter (fun e => e.1 != t)) = (keys xs).filter (fun k => k != t) := by
  induction xs with
  | nil => rfl
  | cons e rest ih =>
    by_cases he : e.1 = t
    · simp [keys, List.filter_cons, he] at ih ⊢
      exact ih
    · simp [keys, List.filter_cons, he] at ih ⊢
      exact ih

/-- Membership in the keys of the swap-and-pop result (full scan from 0,
duplicate-free keys). -/
theorem mem_keys_eraseLoop {xs : Row E} {t : Nat} (hnd : (keys xs).Nodup) (k : Nat) :
    k ∈ keys (eraseLoop xs 0 t) ↔ (k ∈ keys xs ∧ k ≠ t) := by
  have hperm := eraseLoop_perm_filter xs 0 t hnd (by omega)
  have hk : keys (eraseLoop xs 0 t) = keys ((eraseLoop xs 0 t)) := rfl
  constructor
  · intro hmem
    obtain ⟨e, he, hek⟩ := mem_keys_iff.mp hmem
    have he2 : e ∈ xs.filter (fun x => x.1 != t) := hperm.subset he
    have := List.of_mem_filter he2
    refine ⟨mem_keys_iff.mpr ⟨e, List.mem_of_mem_filter he2, hek⟩, ?_⟩
    subst hek
    simpa using this
  · rintro ⟨hmem, hkt⟩
    obtain ⟨e, he, hek⟩ := mem_keys_iff.mp hmem
    have he2 : e ∈ xs.filter (fun x => x.1 != t) :=
      List.mem_filter.mpr ⟨he, by simp [hek, hkt]⟩
    exact mem_keys_iff.mpr ⟨e, hperm.symm.subset he2, hek⟩

/-- Entries of the swap-and-pop result come from the row (duplicate-free keys). -/
theorem mem_of_mem_eraseLoop {xs : Row E} {t : Nat} (hnd : (keys xs).Nodup)
    {e : Nat × E} (he : e ∈ eraseLoop xs 0 t) : e ∈ xs :=
  List.mem_of_mem_filter ((eraseLoop_perm_filter xs 0 t hnd (by omega)).subset he)

/-- The swap-and-pop result keeps duplicate-free keys. -/
theorem keys_eraseLoop_nodup {xs : Row E} {t : Nat} (hnd : (keys xs).Nodup) :
    (keys (eraseLoop xs 0 t)).Nodup := by
  have hperm := eraseLoop_perm_filter xs 0 t hnd (by omega)
  have hmap : (keys (eraseLoop xs 0 t)).Perm (keys (xs.filter (fun e => e.1 != t))) :=
    hperm.map Prod.fst
  refine hmap.nodup_iff.mpr ?_
  rw [keys_filter_ne]
  exact hnd.filter _

/-! ### The retarget loop body -/

theorem length_retargetRow (r : Row E) (lid nid : Nat) :
    (retargetRow r lid nid).length = r.length := by
  simp [retargetRow]

theorem keys_retargetRow (r : Row E) (lid nid : Nat) :
    keys (retargetRow r lid nid) = (keys r).map (fun k => if k = lid then nid else k) := by
  simp only [keys, retargetRow, List.map_map]
  congr 1
  funext e
  by_cases he : e.1 = lid <;> simp [he]

theorem retargetRow_eq_self {r : Row E} {lid : Nat} (h : lid ∉ keys r) (nid : Nat) :
    retargetRow r lid nid = r := by
  induction r with
  | nil => rfl
  | cons e rest ih =>
    rw [keys, List.map_cons] at h
    simp only [List.mem_cons, not_or] at h
    show (if e.1 = lid then (nid, e.2) else e) :: retargetRow rest lid nid = e :: rest
    rw [if_neg (fun hc => h.1 hc.symm), ih h.2]

/-! ### Step equations for the two loops of `remove_node` -/

theorem keys_drop_cons {R : Row E} {i : Nat} (hi : i < R.length) :
    keys (R.drop i) = R[i].1 :: keys (R.drop (i + 1)) := by
  rw [List.drop_eq_getElem_cons hi, keys, List.map_cons]
  rfl

theorem key_at_not_mem_drop {R : Row E} {i : Nat} (hi : i < R.length)
    (hnd : (keys R).Nodup) : R[i].1 ∉ keys (R.drop (i + 1)) := by
  have hxs : R.take i ++ R[i] :: R.drop (i + 1) = R := by
    rw [← List.drop_eq_getElem_cons hi, List.take_append_drop]
  have hkeys : keys R = keys (R.take i) ++ R[i].1 :: keys (R.drop (i + 1)) := by
    conv_lhs => rw [← hxs]
    rw [keys, List.map_append, List.map_cons]
    rfl
  rw [hkeys] at hnd
  exact (List.nodup_cons.mp (List.nodup_append.mp hnd).2.1).1

theorem loopA_done {adj : Adj E} {nid : Nat} (i : Nat) (h : nid < adj.length)
    (hge : (rowOf adj nid).length ≤ i) : loopA adj nid i = some adj := by
  rw [loopA]
  split
  · rename_i hrow
    rw [List.getElem?_eq_none_iff] at hrow
    omega
  · rename_i row hrow
    have hrw : row = rowOf adj nid :=
      (Option.some.inj ((rowOf_eq_of_lt h).symm.trans hrow)).symm
    rw [dif_neg (by rw [hrw]; omega)]

theorem loopA_step {adj : Adj E} {nid : Nat} {i : Nat} {e : Nat × E}
    (h : nid < adj.length)
    (hi : i < (rowOf adj nid).length)
    (he : (rowOf adj nid)[i] = e)
    (hlt : e.1 < adj.length) :
    loopA adj nid i = loopA (adj.set e.1 (eraseLoop (rowOf adj e.1) 0 nid)) nid (i + 1) := by
  rw [loopA]
  split
  · rename_i hrow
    rw [List.getElem?_eq_none_iff] at hrow
    omega
  · rename_i row hrow
    have hrw : row = rowOf adj nid :=
      (Option.some.inj ((rowOf_eq_of_lt h).symm.trans hrow)).symm
    subst hrw
    rw [dif_pos hi]
    rw [he]
    split
    · rename_i horow
      rw [List.getElem?_eq_none_iff] at horow
      omega
    · rename_i orow horow
      have hor : orow = rowOf adj e.1 :=
        (Option.some.inj ((rowOf_eq_of_lt hlt).symm.trans horow)).symm
      rw [hor]

theorem loopC_done {adj : Adj E} {nid lid : Nat} (i : Nat) (h : nid < adj.length)
    (hge : (rowOf adj nid).length ≤ i) : loopC adj nid lid i = some adj := by
  rw [loopC]
  split
  · rename_i hrow
    rw [List.getElem?_eq_none_iff] at hrow
    omega
  · rename_i row hrow
    have hrw : row = rowOf adj nid :=
      (Option.some.inj ((rowOf_eq_of_lt h).symm.trans hrow)).symm
    rw [dif_neg (by rw [hrw]; omega)]

theorem loopC_step {adj : Adj E} {nid lid : Nat} {i : Nat} {e : Nat × E}
    (h : nid < adj.length)
    (hi : i < (rowOf adj nid).length)
    (he : (rowOf adj nid)[i] = e)
    (hlt : e.1 < adj.length) :
    loopC adj nid lid i =
      loopC (adj.set e.1 (retargetRow (rowOf adj e.1) lid nid)) nid lid (i + 1) := by
  rw [loopC]
  split
  · rename_i hrow
    rw [List.getElem?_eq_none_iff] at hrow
    omega
  · rename_i row hrow
    have hrw : row = rowOf adj nid :=
      (Option.some.inj ((rowOf_eq_of_lt h).symm.trans hrow)).symm
    subst hrw
    rw [dif_pos hi]
    rw [he]
    split
    · rename_i horow
      rw [List.getElem?_eq_none_iff] at horow
      omega
    · rename_i lrow hlrow
      have hor : lrow = rowOf adj e.1 :=
        (Option.some.inj ((rowOf_eq_of_lt hlt).symm.trans hlrow)).symm
      rw [hor]

/-! ### Phase lemma for the reciprocal-removal loop -/

theorem loopA_spec (nid : Nat) : ∀ (fuel : Nat) (adj : Adj E) (i : Nat),
    (rowOf adj nid).length - i ≤ fuel →
    nid < adj.length →
    (∀ e ∈ rowOf adj nid, e.1 ≠ nid ∧ e.1 < adj.length) →
    (keys (rowOf adj nid)).Nodup →
    (∀ j, (keys (rowOf adj j)).Nodup) →
    ∃ adjA, loopA adj nid i = some adjA ∧
      adjA.length = adj.length ∧
      rowOf adjA nid = rowOf adj nid ∧
      ∀ j, j ≠ nid →
        ((j ∈ keys ((rowOf adj nid).drop i) →
            (rowOf adjA j).Perm ((rowOf adj j).filter (fun e => e.1 != nid))) ∧
         (j ∉ keys ((rowOf adj nid).drop i) → rowOf adjA j = rowOf adj j)) := by
  intro fuel
  induction fuel with
  | zero =>
    intro adj i hfuel hn hout hnd hall
    have hge : (rowOf adj nid).length ≤ i := by omega
    have hdrop : (rowOf adj nid).drop i = [] := List.drop_eq_nil_iff_le.mpr hge
    refine ⟨adj, loopA_done i hn hge, rfl, rfl, ?_⟩
    intro j hj
    constructor
    · intro hmem
      rw [hdrop] at hmem
      simp [keys] at hmem
    · intro _
      rfl
  | succ fuel ih =>
    intro adj i hfuel hn hout hnd hall
    rcases Nat.lt_or_ge i (rowOf adj nid).length with hi | hge
    · -- an iteration happens at slot i
      have hmem0 : (rowOf adj nid)[i] ∈ rowOf adj nid := List.getElem_mem hi
      obtain ⟨hene, helt⟩ := hout _ hmem0
      have hstep := loopA_step hn hi rfl helt
      have hset_nid : rowOf (adj.set (rowOf adj nid)[i].1
          (eraseLoop (rowOf adj (rowOf adj nid)[i].1) 0 nid)) nid = rowOf adj nid :=
        rowOf_set_ne hene
      have hlen' : (adj.set (rowOf adj nid)[i].1
          (eraseLoop (rowOf adj (rowOf adj nid)[i].1) 0 nid)).length = adj.length :=
        List.length_set _ _ _
      obtain ⟨adjA, hA, hlenA, hrowA, hrestA⟩ := ih
        (adj.set (rowOf adj nid)[i].1 (eraseLoop (rowOf adj (rowOf adj nid)[i].1) 0 nid))
        (i + 1)
        (by rw [hset_nid]; omega)
        (by rw [hlen']; exact hn)
        (by rw [hset_nid, hlen']; exact hout)
        (by rw [hset_nid]; exact hnd)
        (by
          intro j
          by_cases hje : j = (rowOf adj nid)[i].1
          · subst hje
            rw [rowOf_set_self helt]
            exact keys_eraseLoop_nodup (hall _)
          · rw [rowOf_set_ne (fun hc => hje hc.symm)]
            exact hall j)
      refine ⟨adjA, hstep.trans hA, by rw [hlenA, hlen'], by rw [hrowA, hset_nid], ?_⟩
      intro j hj
      have hconskeys : keys ((rowOf adj nid).drop i) =
          (rowOf adj nid)[i].1 :: keys ((rowOf adj nid).drop (i + 1)) := keys_drop_cons hi
      by_cases hje : j = (rowOf adj nid)[i].1
      · -- the processed neighbor
        subst hje
        have hnotin : (rowOf adj nid)[i].1 ∉ keys ((rowOf adj nid).drop (i + 1)) :=
          key_at_not_mem_drop hi hnd
        have hunch := (hrestA _ hj).2 (by rw [hset_nid]; exact hnotin)
        rw [rowOf_set_self helt] at hunch
        constructor
        · intro _
          rw [hunch]
          exact eraseLoop_perm_filter _ 0 nid (hall _) (by omega)
        · intro hnm
          rw [hconskeys] at hnm
          exact absurd (List.mem_cons_self _ _) hnm
      · -- an untouched row at this step
        have hset_j : rowOf (adj.set (rowOf adj nid)[i].1
            (eraseLoop (rowOf adj (rowOf adj nid)[i].1) 0 nid)) j =
            rowOf adj j := rowOf_set_ne (fun hc => hje hc.symm)
        have hiff : j ∈ keys ((rowOf adj nid).drop i) ↔
            j ∈ keys ((rowOf adj nid).drop (i + 1)) := by
          rw [hconskeys]
          simp [hje]
        constructor
        · intro hmem
          have := (hrestA j hj).1 (by rw [hset_nid]; exact hiff.mp hmem)
          rwa [hset_j] at this
        · intro hnm
          have := (hrestA j hj).2 (by rw [hset_nid]; exact fun hc => hnm (hiff.mpr hc))
          rwa [hset_j] at this
    · -- the loop is already done
      have hdrop : (rowOf adj nid).drop i = [] := List.drop_eq_nil_iff_le.mpr hge
      refine ⟨adj, loopA_done i hn hge, rfl, rfl, ?_⟩
      intro j hj
      constructor
      · intro hmem
        rw [hdrop] at hmem
        simp [keys] at hmem
      · intro _
        rfl

/-! ### Phase lemma for the retarget loop -/

theorem loopC_spec (nid lid : Nat) : ∀ (fuel : Nat) (adj : Adj E) (i : Nat),
    (rowOf adj nid).length - i ≤ fuel →
    nid < adj.length →
    (∀ e ∈ rowOf adj nid, e.1 ≠ nid ∧ e.1 < adj.length) →
    (keys (rowOf adj nid)).Nodup →
    ∃ adjC, loopC adj nid lid i = some adjC ∧
      adjC.length = adj.length ∧
      rowOf adjC nid = rowOf adj nid ∧
      ∀ j, j ≠ nid →
        ((j ∈ keys ((rowOf adj nid).drop i) →
            rowOf adjC j = retargetRow (rowOf adj j) lid nid) ∧
         (j ∉ keys ((rowOf adj nid).drop i) → rowOf adjC j = rowOf adj j)) := by
  intro fuel
  induction fuel with
  | zero =>
    intro adj i hfuel hn hout hnd
    have hge : (rowOf adj nid).length ≤ i := by omega
    have hdrop : (rowOf adj nid).drop i = [] := List.drop_eq_nil_iff_le.mpr hge
    refine ⟨adj, loopC_done i hn hge, rfl, rfl, ?_⟩
    intro j hj
    constructor
    · intro hmem
      rw [hdrop] at hmem
      simp [keys] at hmem
    · intro _
      rfl
  | succ fuel ih =>
    intro adj i hfuel hn hout hnd
    rcases Nat.lt_or_ge i (rowOf adj nid).length with hi | hge
    · have hmem0 : (rowOf adj nid)[i] ∈ rowOf adj nid := List.getElem_mem hi
      obtain ⟨hene, helt⟩ := hout _ hmem0
      have hstep : loopC adj nid lid i =
          loopC (adj.set (rowOf adj nid)[i].1
            (retargetRow (rowOf adj (rowOf adj nid)[i].1) lid nid)) nid lid (i + 1) :=
        loopC_step hn hi rfl helt
      have hset_nid : rowOf (adj.set (rowOf adj nid)[i].1
          (retargetRow (rowOf adj (rowOf adj nid)[i].1) lid nid)) nid = rowOf adj nid :=
        rowOf_set_ne hene
      have hlen' : (adj.set (rowOf adj nid)[i].1
          (retargetRow (rowOf adj (rowOf adj nid)[i].1) lid nid)).length = adj.length :=
        List.length_set _ _ _
      obtain ⟨adjC, hC, hlenC, hrowC, hrestC⟩ := ih
        (adj.set (rowOf adj nid)[i].1 (retargetRow (rowOf adj (rowOf adj nid)[i].1) lid nid))
        (i + 1)
        (by rw [hset_nid]; omega)
        (by rw [hlen']; exact hn)
        (by rw [hset_nid, hlen']; exact hout)
        (by rw [hset_nid]; exact hnd)
      refine ⟨adjC, hstep.trans hC, by rw [hlenC, hlen'], by rw [hrowC, hset_nid], ?_⟩
      intro j hj
      have hconskeys : keys ((rowOf adj nid).drop i) =
          (rowOf adj nid)[i].1 :: keys ((rowOf adj nid).drop (i + 1)) := keys_drop_cons hi
      by_cases hje : j = (rowOf adj nid)[i].1
      · subst hje
        have hnotin : (rowOf adj nid)[i].1 ∉ keys ((rowOf adj nid).drop (i + 1)) :=
          key_at_not_mem_drop hi hnd
        have hunch := (hrestC _ hj).2 (by rw [hset_nid]; exact hnotin)
        rw [rowOf_set_self helt] at hunch
        constructor
        · intro _
          rw [hunch]
        · intro hnm
          rw [hconskeys] at hnm
          exact absurd (List.mem_cons_self _ _) hnm
      · have hset_j : rowOf (adj.set (rowOf adj nid)[i].1
            (retargetRow (rowOf adj (rowOf adj nid)[i].1) lid nid)) j =
            rowOf adj j := rowOf_set_ne (fun hc => hje hc.symm)
        have hiff : j ∈ keys ((rowOf adj nid).drop i) ↔
            j ∈ keys ((rowOf adj nid).drop (i + 1)) := by
          rw [hconskeys]
          simp [hje]
        constructor
        · intro hmem
          have := (hrestC j hj).1 (by rw [hset_nid]; exact hiff.mp hmem)
          rwa [hset_j] at this
        · intro hnm
          have := (hrestC j hj).2 (by rw [hset_nid]; exact fun hc => hnm (hiff.mpr hc))
          rwa [hset_j] at this
    · have hdrop : (rowOf adj nid).drop i = [] := List.drop_eq_nil_iff_le.mpr hge
      refine ⟨adj, loopC_done i hn hge, rfl, rfl, ?_⟩
      intro j hj
      constructor
      · intro hmem
        rw [hdrop] at hmem
        simp [keys] at hmem
      · intro _
        rfl


theorem Inv_empty : Inv (⟨[], []⟩ : Graph P V E) := by
  refine ⟨rfl, ?_, ?_, ?_⟩
  · intro i e he
    rw [rowOf_of_ge (by simp)] at he
    simp at he
  · intro i
    rw [rowOf_of_ge (by simp)]
    simp [keys]
  · intro i j hj
    rw [rowOf_of_ge (by simp)] at hj
    simp [keys] at hj

theorem Inv_clear (g : Graph P V E) : Inv g.clear :=
  Inv_empty

/-- A row read of the one-longer table produced by `add_node`. -/
theorem rowOf_append_single (adj : Adj E) (r : Row E) (j : Nat) :
    rowOf (adj ++ [r]) j = if j = adj.length then r else rowOf adj j := by
  rcases Nat.lt_trichotomy j adj.length with hlt | heq | hgt
  · rw [if_neg (by omega), rowOf, rowOf, List.getElem?_append, if_pos hlt]
  · subst heq
    rw [if_pos rfl, rowOf]
    simp
  · have hlen1 : (adj ++ [r]).length ≤ j := by
      rw [List.length_append]
      simp only [List.length_cons, List.length_nil]
      omega
    rw [if_neg (by omega), rowOf, rowOf,
      List.getElem?_eq_none_iff.mpr hlen1,
      List.getElem?_eq_none_iff.mpr (by omega)]

theorem Inv_add_node (g : Graph P V E) (p : P) (v : V) (hinv : Inv g) :
    Inv (g.add_node p v) := by
  obtain ⟨hlen, hout, hnd, hsym⟩ := hinv
  refine ⟨?_, ?_, ?_, ?_⟩
  · simp [Graph.add_node]
    omega
  · intro i e he
    rw [show (g.add_node p v).adjacency_ = g.adjacency_ ++ [[]] from rfl] at he ⊢
    rw [rowOf_append_single] at he
    split at he
    · simp at he
    · have := hout i e he
      constructor
      · simp
        omega
      · exact this.2
  · intro i
    rw [show (g.add_node p v).adjacency_ = g.adjacency_ ++ [[]] from rfl,
      rowOf_append_single]
    split
    · simp [keys]
    · exact hnd i
  · intro i j hj
    rw [show (g.add_node p v).adjacency_ = g.adjacency_ ++ [[]] from rfl,
      rowOf_append_single] at hj ⊢
    split at hj
    · simp [keys] at hj
    · have hj2 := hsym i j hj
      have hjlt : j < g.adjacency_.length := by
        obtain ⟨e, he, hek⟩ := mem_keys_iff.mp hj
        have := (hout i e he).1
        omega
      rw [if_neg (by omega)]
      exact hj2

/-! ### Key-membership helpers for erased and retargeted rows -/

theorem mem_keys_filter_ne {r : Row E} {t k : Nat} :
    k ∈ keys (r.filter (fun e => e.1 != t)) ↔ k ∈ keys r ∧ k ≠ t := by
  rw [keys_filter_ne, List.mem_filter]
  simp

theorem mem_keys_retargetRow {r : Row E} {lid nid k : Nat} :
    k ∈ keys (retargetRow r lid nid) ↔
      ∃ k0 ∈ keys r, (if k0 = lid then nid else k0) = k := by
  rw [keys_retargetRow]
  exact List.mem_map

theorem keys_retargetRow_nodup {r : Row E} {lid nid : Nat}
    (hnd : (keys r).Nodup) (hnot : nid ∉ keys r) :
    (keys (retargetRow r lid nid)).Nodup := by
  rw [keys_retargetRow]
  refine (List.nodup_map_iff_inj_on hnd).mpr ?_
  intro k1 hk1 k2 hk2 heq
  by_cases h1 : k1 = lid <;> by_cases h2 : k2 = lid
  · rw [h1, h2]
  · rw [if_pos h1, if_neg h2] at heq
    exact absurd (heq ▸ hk2) hnot
  · rw [if_neg h1, if_pos h2] at heq
    exact absurd (heq ▸ hk1) hnot
  · rwa [if_neg h1, if_neg h2] at heq

theorem mem_keys_append_single {r : Row E} {x : Nat} {d : E} {k : Nat} :
    k ∈ keys (r ++ [(x, d)]) ↔ k ∈ keys r ∨ k = x := by
  simp [keys]

/-- The append case of `add_edge`, at the level of adjacency tables:
pushing the two half-edges of a fresh edge preserves the invariant
fields. -/
theorem adj_append_inv {adj A2 : Adj E} {d : E} {aid bid : Nat}
    (hA2 : A2 = (adj.set aid (rowOf adj aid ++ [(bid, d)])).set bid
      (rowOf adj bid ++ [(aid, d)]))
    (hout : ∀ i, ∀ e ∈ rowOf adj i, e.1 < adj.length ∧ e.1 ≠ i)
    (hnd : ∀ i, (keys (rowOf adj i)).Nodup)
    (hsym : ∀ i j, j ∈ keys (rowOf adj i) → i ∈ keys (rowOf adj j))
    (ha : aid < adj.length) (hb : bid < adj.length) (hab : aid ≠ bid)
    (hbidnot : bid ∉ keys (rowOf adj aid)) (haidnot : aid ∉ keys (rowOf adj bid)) :
    A2.length = adj.length ∧
    (∀ i, ∀ e ∈ rowOf A2 i, e.1 < A2.length ∧ e.1 ≠ i) ∧
    (∀ i, (keys (rowOf A2 i)).Nodup) ∧
    (∀ i j, j ∈ keys (rowOf A2 i) → i ∈ keys (rowOf A2 j)) := by
  have hlen2 : A2.length = adj.length := by rw [hA2]; simp
  have hrow' : ∀ j, rowOf A2 j =
      if j = bid then rowOf adj bid ++ [(aid, d)]
      else if j = aid then rowOf adj aid ++ [(bid, d)]
      else rowOf adj j := by
    intro j
    rw [hA2]
    by_cases hjb : j = bid
    · subst hjb
      rw [if_pos rfl, rowOf_set_self (by simpa using hb)]
    · rw [if_neg hjb, rowOf_set_ne (fun hc => hjb hc.symm)]
      by_cases hja : j = aid
      · subst hja
        rw [if_pos rfl, rowOf_set_self ha]
      · rw [if_neg hja, rowOf_set_ne (fun hc => hja hc.symm)]
  refine ⟨hlen2, ?_, ?_, ?_⟩
  · intro i e he
    rw [hlen2]
    rw [hrow' i] at he
    split at he
    · rename_i hib
      rcases List.mem_append.mp he with h1 | h2
      · have h3 := hout bid e h1
        exact ⟨h3.1, by rw [hib]; exact h3.2⟩
      · simp only [List.mem_singleton] at h2
        subst h2
        exact ⟨ha, by rw [hib]; exact hab⟩
    · split at he
      · rename_i hib hia
        rcases List.mem_append.mp he with h1 | h2
        · have h3 := hout aid e h1
          exact ⟨h3.1, by rw [hia]; exact h3.2⟩
        · simp only [List.mem_singleton] at h2
          subst h2
          exact ⟨hb, by rw [hia]; exact fun hc => hab hc.symm⟩
      · exact hout i e he
  · intro i
    rw [hrow' i]
    split
    · rw [keys, List.map_append, List.nodup_append]
      refine ⟨hnd bid, by simp, ?_⟩
      intro k hk
      simp only [List.map_cons, List.map_nil, List.mem_cons, List.not_mem_nil, or_false]
      intro hc
      exact haidnot (hc ▸ hk)
    · split
      · rw [keys, List.map_append, List.nodup_append]
        refine ⟨hnd aid, by simp, ?_⟩
        intro k hk
        simp only [List.map_cons, List.map_nil, List.mem_cons, List.not_mem_nil, or_false]
        intro hc
        exact hbidnot (hc ▸ hk)
      · exact hnd i
  · intro i j hj
    rw [hrow' i] at hj
    rw [hrow' j]
    by_cases hib : i = bid
    · rw [if_pos hib] at hj
      rcases mem_keys_append_single.mp hj with h1 | h2
      · have hjnb : j ≠ bid := fun hc => by
          obtain ⟨e, he, hek⟩ := mem_keys_iff.mp h1
          exact (hout bid e he).2 (hek.trans hc)
        have hj2 := hsym bid j h1
        by_cases hja : j = aid
        · rw [if_neg hjnb, if_pos hja]
          exact mem_keys_append_single.mpr (Or.inr hib)
        · rw [if_neg hjnb, if_neg hja, hib]
          exact hj2
      · have hjnb : j ≠ bid := by
          rw [h2]
          exact hab
        rw [if_neg hjnb, if_pos h2]
        exact mem_keys_append_single.mpr (Or.inr hib)
    · rw [if_neg hib] at hj
      by_cases hia : i = aid
      · rw [if_pos hia] at hj
        rcases mem_keys_append_single.mp hj with h1 | h2
        · have hjna : j ≠ aid := fun hc => by
            obtain ⟨e, he, hek⟩ := mem_keys_iff.mp h1
            exact (hout aid e he).2 (hek.trans hc)
          have hjnb : j ≠ bid := fun hc => hbidnot (hc ▸ h1)
          have hj2 := hsym aid j h1
          rw [if_neg hjnb, if_neg hjna, hia]
          exact hj2
        · rw [if_pos h2]
          exact mem_keys_append_single.mpr (Or.inr hia)
      · rw [if_neg hia] at hj
        have hj2 := hsym i j hj
        by_cases hjb : j = bid
        · rw [if_pos hjb]
          exact mem_keys_append_single.mpr (Or.inl (hjb ▸ hj2))
        · by_cases hja : j = aid
          · rw [if_neg hjb, if_pos hja]
            exact mem_keys_append_single.mpr (Or.inl (hja ▸ hj2))
          · rw [if_neg hjb, if_neg hja]
            exact hj2

theorem Inv_add_edge [Inhabited E] {g g1 : Graph P V E} {aid bid : Nat} {e1 : EdgeH}
    (hinv : Inv g) (h : g.add_edge aid bid = some (g1, e1)) : Inv g1 := by
  obtain ⟨hlen, hout, hnd, hsym⟩ := hinv
  obtain ⟨⟨hv1, hv2, hv3⟩, hcases⟩ := add_edge_some_inv h
  rcases hcases with ⟨rowa, i, hget, hfind, rfl, -⟩ |
    ⟨rowa, rowb, hget, hfind, hgetb, rfl, -⟩
  · exact ⟨hlen, hout, hnd, hsym⟩
  · obtain ⟨haLen, -⟩ := List.getElem?_eq_some.mp hget
    have hbLen : bid < g.adjacency_.length := by
      have hsz : g.size = g.nodes_.length := rfl
      omega
    have hrowa : rowa = rowOf g.adjacency_ aid :=
      (Option.some.inj ((rowOf_eq_of_lt haLen).symm.trans hget)).symm
    subst hrowa
    have hrowb : rowb = rowOf g.adjacency_ bid := by
      have h1 : (g.adjacency_.set aid (rowOf g.adjacency_ aid ++ [(bid, default)]))[bid]? =
          g.adjacency_[bid]? := List.getElem?_set_ne hv3
      rw [h1] at hgetb
      exact (Option.some.inj ((rowOf_eq_of_lt hbLen).symm.trans hgetb)).symm
    subst hrowb
    have hbidnot : bid ∉ keys (rowOf g.adjacency_ aid) := by
      intro hmem
      obtain ⟨e, he, hek⟩ := mem_keys_iff.mp hmem
      exact (findSlot_eq_none.mp hfind e he) hek
    have haidnot : aid ∉ keys (rowOf g.adjacency_ bid) := by
      intro hmem
      exact hbidnot (hsym bid aid hmem)
    obtain ⟨c1, c2, c3, c4⟩ := adj_append_inv rfl hout hnd hsym haLen hbLen hv3 hbidnot haidnot
    exact ⟨by simpa using hlen.trans c1.symm, c2, c3, c4⟩

/-- Inversion of a successful `remove_edge`: either the early no-edge
return, or both swap-and-pop scans ran. -/
theorem remove_edge_some_inv {g g' : Graph P V E} {aid bid : Nat} {r : Bool}
    (h : g.remove_edge aid bid = some (g', r)) :
    (aid < g.size ∧ bid < g.size) ∧
      ((g.has_edge aid bid = false ∧ g' = g ∧ r = false) ∨
        (g.has_edge aid bid = true ∧ ∃ rowa rowb,
          g.adjacency_[aid]? = some rowa ∧
          (g.adjacency_.set aid (eraseLoop rowa 0 bid))[bid]? = some rowb ∧
          g' = ⟨g.nodes_, (g.adjacency_.set aid (eraseLoop rowa 0 bid)).set bid
            (eraseLoop rowb 0 aid)⟩)) := by
  unfold Graph.remove_edge at h
  split at h
  · rename_i hvalid
    refine ⟨hvalid, ?_⟩
    split at h
    · rename_i hhe
      obtain ⟨rfl, rfl⟩ := Prod.mk.injEq .. ▸ Option.some.inj h
      exact Or.inl ⟨hhe, rfl, rfl⟩
    · rename_i hhe
      split at h
      · exact absurd h (by simp)
      · rename_i rowa hget
        dsimp only [] at h
        split at h
        · exact absurd h (by simp)
        · rename_i rowb hgetb
          obtain ⟨rfl, rfl⟩ := Prod.mk.injEq .. ▸ Option.some.inj h
          exact Or.inr ⟨by simpa using hhe, rowa, rowb, hget, hgetb, rfl⟩
  · exact absurd h (by simp)

/-- The removing case of `remove_edge`, at the level of adjacency tables:
running the swap-and-pop scan on both endpoint rows preserves the
invariant fields. -/
theorem adj_erase_inv {adj A2 : Adj E} {aid bid : Nat}
    (hA2 : A2 = (adj.set aid (eraseLoop (rowOf adj aid) 0 bid)).set bid
      (eraseLoop (rowOf adj bid) 0 aid))
    (hout : ∀ i, ∀ e ∈ rowOf adj i, e.1 < adj.length ∧ e.1 ≠ i)
    (hnd : ∀ i, (keys (rowOf adj i)).Nodup)
    (hsym : ∀ i j, j ∈ keys (rowOf adj i) → i ∈ keys (rowOf adj j))
    (ha : aid < adj.length) (hb : bid < adj.length) (hab : aid ≠ bid) :
    A2.length = adj.length ∧
    (∀ i, ∀ e ∈ rowOf A2 i, e.1 < A2.length ∧ e.1 ≠ i) ∧
    (∀ i, (keys (rowOf A2 i)).Nodup) ∧
    (∀ i j, j ∈ keys (rowOf A2 i) → i ∈ keys (rowOf A2 j)) := by
  have hlen2 : A2.length = adj.length := by rw [hA2]; simp
  have hrow' : ∀ j, rowOf A2 j =
      if j = bid then eraseLoop (rowOf adj bid) 0 aid
      else if j = aid then eraseLoop (rowOf adj aid) 0 bid
      else rowOf adj j := by
    intro j
    rw [hA2]
    by_cases hjb : j = bid
    · subst hjb
      rw [if_pos rfl, rowOf_set_self (by simpa using hb)]
    · rw [if_neg hjb, rowOf_set_ne (fun hc => hjb hc.symm)]
      by_cases hja : j = aid
      · subst hja
        rw [if_pos rfl, rowOf_set_self ha]
      · rw [if_neg hja, rowOf_set_ne (fun hc => hja hc.symm)]
  refine ⟨hlen2, ?_, ?_, ?_⟩
  · intro i e he
    rw [hlen2]
    rw [hrow' i] at he
    split at he
    · rename_i hib
      have h3 := hout bid e (mem_of_mem_eraseLoop (hnd bid) he)
      exact ⟨h3.1, by rw [hib]; exact h3.2⟩
    · split at he
      · rename_i hib hia
        have h3 := hout aid e (mem_of_mem_eraseLoop (hnd aid) he)
        exact ⟨h3.1, by rw [hia]; exact h3.2⟩
      · exact hout i e he
  · intro i
    rw [hrow' i]
    split
    · exact keys_eraseLoop_nodup (hnd bid)
    · split
      · exact keys_eraseLoop_nodup (hnd aid)
      · exact hnd i
  · intro i j hj
    rw [hrow' i] at hj
    rw [hrow' j]
    by_cases hib : i = bid
    · rw [if_pos hib] at hj
      obtain ⟨h1, hja⟩ := (mem_keys_eraseLoop (hnd bid) j).mp hj
      have hjnb : j ≠ bid := by
        intro hc
        obtain ⟨e, he, hek⟩ := mem_keys_iff.mp h1
        exact (hout bid e he).2 (hek.trans hc)
      have hj2 := hsym bid j h1
      rw [if_neg hjnb, if_neg hja, hib]
      exact hj2
    · rw [if_neg hib] at hj
      by_cases hia : i = aid
      · rw [if_pos hia] at hj
        obtain ⟨h1, hjb⟩ := (mem_keys_eraseLoop (hnd aid) j).mp hj
        have hjna : j ≠ aid := by
          intro hc
          obtain ⟨e, he, hek⟩ := mem_keys_iff.mp h1
          exact (hout aid e he).2 (hek.trans hc)
        have hj2 := hsym aid j h1
        rw [if_neg hjb, if_neg hjna, hia]
        exact hj2
      · rw [if_neg hia] at hj
        have hj2 := hsym i j hj
        by_cases hjb : j = bid
        · rw [if_pos hjb]
          exact (mem_keys_eraseLoop (hnd bid) i).mpr ⟨hjb ▸ hj2, hia⟩
        · by_cases hja : j = aid
          · rw [if_neg hjb, if_pos hja]
            exact (mem_keys_eraseLoop (hnd aid) i).mpr ⟨hja ▸ hj2, hib⟩
          · rw [if_neg hjb, if_neg hja]
            exact hj2

theorem Inv_remove_edge {g g' : Graph P V E} {aid bid : Nat} {r : Bool}
    (hinv : Inv g) (h : g.remove_edge aid bid = some (g', r)) : Inv g' := by
  obtain ⟨hlen, hout, hnd, hsym⟩ := hinv
  obtain ⟨⟨hv1, hv2⟩, hcases⟩ := remove_edge_some_inv h
  rcases hcases with ⟨-, rfl, -⟩ | ⟨hhe, rowa, rowb, hget, hgetb, rfl⟩
  · exact ⟨hlen, hout, hnd, hsym⟩
  · obtain ⟨haLen, -⟩ := List.getElem?_eq_some.mp hget
    have hbLen : bid < g.adjacency_.length := by
      have hsz : g.size = g.nodes_.length := rfl
      omega
    have hrowa : rowa = rowOf g.adjacency_ aid :=
      (Option.some.inj ((rowOf_eq_of_lt haLen).symm.trans hget)).symm
    subst hrowa
    have hab : aid ≠ bid := by
      intro hc
      have hbm := has_edge_iff_mem_keys.mp hhe
      obtain ⟨e, he, hek⟩ := mem_keys_iff.mp hbm
      exact (hout aid e he).2 (hek.trans hc.symm)
    have hrowb : rowb = rowOf g.adjacency_ bid := by
      have h1 : (g.adjacency_.set aid (eraseLoop (rowOf g.adjacency_ aid) 0 bid))[bid]? =
          g.adjacency_[bid]? := List.getElem?_set_ne hab
      rw [h1] at hgetb
      exact (Option.some.inj ((rowOf_eq_of_lt hbLen).symm.trans hgetb)).symm
    subst hrowb
    obtain ⟨c1, c2, c3, c4⟩ := adj_erase_inv rfl hout hnd hsym haLen hbLen hab
    exact ⟨by simpa using hlen.trans c1.symm, c2, c3, c4⟩

theorem Inv_remove_node {g g' : Graph P V E} {nid : Nat}
    (hinv : Inv g) (h : g.remove_node nid = some g') : Inv g' := by
  obtain ⟨hlen, hout, hnd, hsym⟩ := hinv
  rw [Graph.remove_node] at h
  split at h
  · rename_i hnid
    have hsz : g.size = g.nodes_.length := rfl
    have hnidL : nid < g.adjacency_.length := by omega
    -- the reciprocal-removal loop succeeds and filters `nid` out of the rows
    obtain ⟨adjA, hA, hlenA, hrowA, hrestA⟩ :=
      loopA_spec nid ((rowOf g.adjacency_ nid).length) g.adjacency_ 0 (by omega) hnidL
        (fun e he => ⟨(hout nid e he).2, (hout nid e he).1⟩) (hnd nid) hnd
    have hvl : g.nodes_[g.size - 1]? = some (g.nodes_.get ⟨g.size - 1, by omega⟩) :=
      List.getElem?_eq_getElem (by omega)
    simp only [hvl, Option.some_bind, hA] at h
    have hlidA : g.size - 1 < adjA.length := by rw [hlenA]; omega
    have hrl : adjA[g.size - 1]? = some (rowOf adjA (g.size - 1)) := rowOf_eq_of_lt hlidA
    simp only [hrl, Option.some_bind] at h
    have hlen2 : ((adjA.set nid (rowOf adjA (g.size - 1))).dropLast).length =
        g.adjacency_.length - 1 := by
      simp [hlenA]
    by_cases hcase : nid = g.size - 1
    · -- removing the node with the largest id: the retarget loop fails
      exfalso
      have hoob : ((adjA.set nid (rowOf adjA (g.size - 1))).dropLast)[nid]? = none := by
        rw [List.getElem?_eq_none_iff, hlen2]
        omega
      have hnone : loopC ((adjA.set nid (rowOf adjA (g.size - 1))).dropLast) nid
          (g.size - 1) 0 = none := by
        rw [loopC]
        split
        · rfl
        · rename_i row hrow
          rw [hoob] at hrow
          exact absurd hrow (by simp)
      rw [hnone] at h
      simp at h
    · have hnlt : nid < g.size - 1 := by omega
      -- the uniform outcome of the reciprocal-removal loop
      have hAperm : ∀ j, j ≠ nid →
          (rowOf adjA j).Perm ((rowOf g.adjacency_ j).filter (fun e => e.1 != nid)) := by
        intro j hj
        by_cases hjR : j ∈ keys ((rowOf g.adjacency_ nid).drop 0)
        · exact (hrestA j hj).1 hjR
        · rw [(hrestA j hj).2 hjR]
          simp only [List.drop_zero] at hjR
          have hnm : ∀ e ∈ rowOf g.adjacency_ j, e.1 ≠ nid := by
            intro e he hc
            exact hjR (hsym j nid (mem_keys_iff.mpr ⟨e, he, hc⟩))
          rw [List.filter_eq_self.mpr (fun e he => by simpa using hnm e he)]
      -- rows of the shrunken table
      have hrow2 : ∀ j, j < g.adjacency_.length - 1 →
          rowOf ((adjA.set nid (rowOf adjA (g.size - 1))).dropLast) j =
            if j = nid then rowOf adjA (g.size - 1) else rowOf adjA j := by
        intro j hj
        rw [rowOf_dropLast (by simp only [List.length_set, hlenA]; omega)]
        by_cases hjn : j = nid
        · rw [if_pos hjn, hjn, rowOf_set_self (by rw [hlenA]; omega)]
        · rw [if_neg hjn, rowOf_set_ne (fun hc => hjn hc.symm)]
      have hperm2 : ∀ j, j < g.adjacency_.length - 1 →
          (rowOf ((adjA.set nid (rowOf adjA (g.size - 1))).dropLast) j).Perm
            ((rowOf g.adjacency_ (if j = nid then g.size - 1 else j)).filter
              (fun e => e.1 != nid)) := by
        intro j hj
        rw [hrow2 j hj]
        by_cases hjn : j = nid
        · rw [if_pos hjn, if_pos hjn]
          exact hAperm (g.size - 1) (by omega)
        · rw [if_neg hjn, if_neg hjn]
          exact hAperm j hjn
      have hnid2 : nid < ((adjA.set nid (rowOf adjA (g.size - 1))).dropLast).length := by
        rw [hlen2]
        omega
      have hR2perm := hperm2 nid (by omega)
      rw [if_pos rfl] at hR2perm
      have hout2 : ∀ e ∈ rowOf ((adjA.set nid (rowOf adjA (g.size - 1))).dropLast) nid,
          e.1 ≠ nid ∧ e.1 < ((adjA.set nid (rowOf adjA (g.size - 1))).dropLast).length := by
        intro e he
        have he2 := hR2perm.subset he
        have he3 := List.mem_of_mem_filter he2
        have hne := List.of_mem_filter he2
        have h4 := hout (g.size - 1) e he3
        refine ⟨by simpa using hne, ?_⟩
        rw [hlen2]
        have h5 := h4.1
        have h6 := h4.2
        omega
      have hnd2row : (keys (rowOf ((adjA.set nid (rowOf adjA (g.size - 1))).dropLast) nid)).Nodup := by
        have hkp := hR2perm.map Prod.fst
        refine hkp.nodup_iff.mpr ?_
        have hflt : (keys ((rowOf g.adjacency_ (g.size - 1)).filter
            (fun e => e.1 != nid))).Nodup := by
          rw [keys_filter_ne]
          exact (hnd _).filter _
        exact hflt
      obtain ⟨adjC, hC, hlenC, hrowC, hrestC⟩ :=
        loopC_spec nid (g.size - 1)
          ((rowOf ((adjA.set nid (rowOf adjA (g.size - 1))).dropLast) nid).length)
          ((adjA.set nid (rowOf adjA (g.size - 1))).dropLast) 0 (by omega) hnid2 hout2 hnd2row
      rw [hC] at h
      simp only [Option.map_some'] at h
      obtain rfl := (Option.some.inj h).symm
      -- membership in the nid row of the shrunken table
      have hmemR2 : ∀ k, k ∈ keys (rowOf ((adjA.set nid (rowOf adjA (g.size - 1))).dropLast) nid) ↔
          (k ∈ keys (rowOf g.adjacency_ (g.size - 1)) ∧ k ≠ nid) := by
        intro k
        exact ((hR2perm.map Prod.fst).mem_iff).trans mem_keys_filter_ne
      -- the uniform outcome of the retarget loop
      have hC3 : ∀ j, rowOf adjC j =
          retargetRow (rowOf ((adjA.set nid (rowOf adjA (g.size - 1))).dropLast) j)
            (g.size - 1) nid := by
        intro j
        by_cases hjn : j = nid
        · rw [hjn, hrowC]
          refine (retargetRow_eq_self ?_ nid).symm
          intro hlidin
          obtain ⟨hmem, -⟩ := (hmemR2 _).mp hlidin
          obtain ⟨e, he, hek⟩ := mem_keys_iff.mp hmem
          exact (hout (g.size - 1) e he).2 hek
        · by_cases hjk : j ∈ keys
            ((rowOf ((adjA.set nid (rowOf adjA (g.size - 1))).dropLast) nid).drop 0)
          · exact (hrestC j hjn).1 hjk
          · rw [(hrestC j hjn).2 hjk]
            simp only [List.drop_zero] at hjk
            refine (retargetRow_eq_self ?_ nid).symm
            intro hlidin
            by_cases hjL : j < g.adjacency_.length - 1
            · have h5 := mem_keys_filter_ne.mp (((hperm2 j hjL).map Prod.fst).mem_iff.mp hlidin)
              rw [if_neg hjn] at h5
              exact hjk ((hmemR2 j).mpr ⟨hsym j (g.size - 1) h5.1, hjn⟩)
            · rw [rowOf_of_ge (by rw [hlen2]; omega)] at hlidin
              simp [keys] at hlidin
      -- where every entry of the final table comes from
      have horigin : ∀ j, j < g.adjacency_.length - 1 → ∀ e' ∈ rowOf adjC j,
          ∃ e0, e0 ∈ rowOf g.adjacency_ (if j = nid then g.size - 1 else j) ∧ e0.1 ≠ nid ∧
            e' = (if e0.1 = g.size - 1 then (nid, e0.2) else e0) := by
        intro j hj e' he'
        rw [hC3 j] at he'
        obtain ⟨e0, he0, he0'⟩ := List.mem_map.mp he'
        have h1 := (hperm2 j hj).subset he0
        exact ⟨e0, List.mem_of_mem_filter h1, by simpa using List.of_mem_filter h1, he0'.symm⟩
      have hlenC2 : adjC.length = g.adjacency_.length - 1 := by rw [hlenC, hlen2]
      -- the four invariant fields of the result
      have hfield2 : ∀ i, ∀ e ∈ rowOf adjC i, e.1 < adjC.length ∧ e.1 ≠ i := by
        intro i e' he'
        rcases Nat.lt_or_ge i (g.adjacency_.length - 1) with hiL | hiL
        · obtain ⟨e0, he0mem, he0ne, he'eq⟩ := horigin i hiL e' he'
          have h4 := hout (if i = nid then g.size - 1 else i) e0 he0mem
          rw [hlenC2]
          by_cases he0lid : e0.1 = g.size - 1
          · rw [he'eq, if_pos he0lid]
            have hinn : i ≠ nid := by
              intro hc
              rw [if_pos hc] at h4
              exact h4.2 (by omega)
            exact ⟨by omega, fun hc => hinn hc.symm⟩
          · rw [he'eq, if_neg he0lid]
            have h5 := h4.1
            refine ⟨by omega, ?_⟩
            by_cases hin : i = nid
            · rw [hin]
              exact he0ne
            · rw [if_neg hin] at h4
              exact h4.2
        · rw [rowOf_of_ge (by omega)] at he'
          simp at he'
      have hfield3 : ∀ i, (keys (rowOf adjC i)).Nodup := by
        intro i
        rcases Nat.lt_or_ge i (g.adjacency_.length - 1) with hiL | hiL
        · rw [hC3 i]
          refine keys_retargetRow_nodup ?_ ?_
          · have hkp := (hperm2 i hiL).map Prod.fst
            refine hkp.nodup_iff.mpr ?_
            have hflt : (keys ((rowOf g.adjacency_
                (if i = nid then g.size - 1 else i)).filter
                (fun e => e.1 != nid))).Nodup := by
              rw [keys_filter_ne]
              exact (hnd _).filter _
            exact hflt
          · intro hc
            have h5 := mem_keys_filter_ne.mp (((hperm2 i hiL).map Prod.fst).mem_iff.mp hc)
            exact h5.2 rfl
        · rw [rowOf_of_ge (by omega)]
          simp [keys]
      have hmem3 : ∀ a b, a < g.adjacency_.length - 1 →
          (b ∈ keys (rowOf adjC a) ↔
            ((b = nid ∧ (g.size - 1) ∈ keys (rowOf g.adjacency_
                (if a = nid then g.size - 1 else a))) ∨
              (b ≠ nid ∧ b ≠ g.size - 1 ∧ b ∈ keys (rowOf g.adjacency_
                (if a = nid then g.size - 1 else a))))) := by
        intro a b ha2
        rw [hC3 a, mem_keys_retargetRow]
        constructor
        · rintro ⟨k0, hk0, hk0eq⟩
          have h5 := mem_keys_filter_ne.mp (((hperm2 a ha2).map Prod.fst).mem_iff.mp hk0)
          by_cases hk0lid : k0 = g.size - 1
          · rw [if_pos hk0lid] at hk0eq
            exact Or.inl ⟨hk0eq.symm, hk0lid ▸ h5.1⟩
          · rw [if_neg hk0lid] at hk0eq
            exact Or.inr ⟨hk0eq ▸ h5.2, hk0eq ▸ hk0lid, hk0eq ▸ h5.1⟩
        · rintro (⟨rfl, hlidmem⟩ | ⟨hbn, hblid, hbmem⟩)
          · refine ⟨g.size - 1, ((hperm2 a ha2).map Prod.fst).mem_iff.mpr
              (mem_keys_filter_ne.mpr ⟨hlidmem, by omega⟩), by rw [if_pos rfl]⟩
          · refine ⟨b, ((hperm2 a ha2).map Prod.fst).mem_iff.mpr
              (mem_keys_filter_ne.mpr ⟨hbmem, hbn⟩), by rw [if_neg hblid]⟩
      have hfield4 : ∀ i j, j ∈ keys (rowOf adjC i) → i ∈ keys (rowOf adjC j) := by
        intro i j hji
        have hiL : i < g.adjacency_.length - 1 := by
          by_contra hc
          rw [rowOf_of_ge (by omega)] at hji
          simp [keys] at hji
        have hjL : j < g.adjacency_.length - 1 := by
          obtain ⟨e', he', hek⟩ := mem_keys_iff.mp hji
          have := (hfield2 i e' he').1
          rw [hlenC2] at this
          omega
        rw [hmem3 i j hiL] at hji
        rw [hmem3 j i hjL]
        rcases hji with ⟨hjeq, hlidmem⟩ | ⟨hjn, hjlid, hjmem⟩
        · have hin : i ≠ nid := by
            intro hc
            rw [if_pos hc] at hlidmem
            obtain ⟨e, he, hek⟩ := mem_keys_iff.mp hlidmem
            exact (hout (g.size - 1) e he).2 hek
          rw [if_neg hin] at hlidmem
          refine Or.inr ⟨hin, by omega, ?_⟩
          rw [if_pos hjeq]
          exact hsym i (g.size - 1) hlidmem
        · by_cases hin : i = nid
          · rw [if_pos hin] at hjmem
            refine Or.inl ⟨hin, ?_⟩
            rw [if_neg hjn]
            exact hsym (g.size - 1) j hjmem
          · rw [if_neg hin] at hjmem
            refine Or.inr ⟨hin, by omega, ?_⟩
            rw [if_neg hjn]
            exact hsym i j hjmem
      refine ⟨?_, hfield2, hfield3, hfield4⟩
      show ((g.nodes_.set nid (g.nodes_.get ⟨g.size - 1, by omega⟩)).dropLast).length = adjC.length
      rw [hlenC2]
      simp
      omega
  · exact absurd h (by simp)

/-! ### The invariant holds in every reachable state -/

/-- The empty graph satisfies the representation invariant and each of
the five mutators preserves it, so every reachable state satisfies it. -/
theorem inv_of_reachable [Inhabited E] {g : Graph P V E} (h : Reachable g) :
    Inv g := by
  induction h with
  | empty => exact Inv_empty
  | add_node g p v _ ih => exact Inv_add_node g p v ih
  | add_edge g g1 a b e1 _ heq ih => exact Inv_add_edge ih heq
  | remove_node g g1 n _ heq ih => exact Inv_remove_node ih heq
  | remove_edge g g1 a b r _ heq ih => exact Inv_remove_edge ih heq
  | clear g _ _ => exact Inv_clear g

/-- C5: in every graph state reachable from the empty graph by any
sequence of `add_node`, `add_edge`, `remove_node`, `remove_edge` and
`clear`, and for every pair of valid node handles `a` and `b`,
`has_edge(a, b)` returns the same boolean as `has_edge(b, a)`: every
stored half-edge `a → b` has a reciprocal half-edge `b → a`. -/
theorem C5_has_edge_symmetric [Inhabited E] {g : Graph P V E} (hr : Reachable g)
    {a b : Nat} (ha : a < g.num_nodes) (hb : b < g.num_nodes) :
    g.has_edge a b = g.has_edge b a := by
  obtain ⟨-, -, -, hsym⟩ := inv_of_reachable hr
  have hiff : g.has_edge a b = true ↔ g.has_edge b a = true := by
    rw [has_edge_iff_mem_keys, has_edge_iff_mem_keys]
    exact ⟨hsym a b, hsym b a⟩
  cases hab : g.has_edge a b
  · cases hba : g.has_edge b a
    · rfl
    · exact absurd (hiff.mpr hba) (by simp [hab])
  · exact (hiff.mp hab).symm

/-- C5 at a concrete reachable state: `path2` arises from the empty
graph by two `add_node` calls and one successful `add_edge`, and
`has_edge` is symmetric on its valid handles 0 and 1. -/
theorem C5_witness : path2.has_edge 0 1 = path2.has_edge 1 0 :=
  C5_has_edge_symmetric
    (Reachable.add_edge twoNodesG path2 0 1 ⟨0, 0⟩
      (Reachable.add_node oneNodeG () ()
        (Reachable.add_node emptyU () () Reachable.empty))
      (by decide))
    (by decide) (by decide)

/-- C10: in every graph state reachable from the empty graph by any
sequence of `add_node`, `add_edge`, `remove_node`, `remove_edge` and
`clear`, the node table and the adjacency table have the same length,
so every node id below `size()` indexes both a node record and an
adjacency row. -/
theorem C10_tables_equal_length [Inhabited E] {g : Graph P V E}
    (hr : Reachable g) : g.nodes_.length = g.adjacency_.length :=
  (inv_of_reachable hr).1

/-- C10 at a concrete reachable state: `isoZero3` arises from the empty
graph by three `add_node` calls and one successful `add_edge`, and its
two tables have equal lengths. -/
theorem C10_witness : isoZero3.nodes_.length = isoZero3.adjacency_.length :=
  C10_tables_equal_length
    (Reachable.add_edge (twoNodesG.add_node () ()) isoZero3 1 2 ⟨1, 0⟩
      (Reachable.add_node twoNodesG () ()
        (Reachable.add_node oneNodeG () ()
          (Reachable.add_node emptyU () () Reachable.empty)))
      (by decide))

end HW2
